import Mathlib

/-!
Verification of the flash-mail-merge core (Go) against its specification.

Text is modelled as `List Char` (Go strings are byte slices; the claims under
study only involve characters where the byte/rune distinction is irrelevant).
Go maps are modelled as association lists; map iteration happens in list
order (Go's map iteration order is unspecified; none of the claims proved
here depend on a particular order, and the counterexamples use maps where
every iteration order gives the same outcome).
-/

/-- Character list abbreviation for document / JSON text. -/
abbrev Str := List Char

/-- The character data of a string literal. -/
def str (s : String) : Str := s.data

/-- `normalize` from `internal/fields/models.go`: `strings.ToLower`.
Modelled on the character level (ASCII case mapping; the repository's
field names and data keys are ASCII). -/
def normName (s : Str) : Str := s.map Char.toLower

/-- Go `strings.EqualFold`, modelled as equality after lowercasing
(agrees with `normName`-equality, which is the consistency property
the spec demands). -/
def equalFold (a b : Str) : Bool := normName a == normName b

/-- Association-list read, modelling Go map indexing `m[k]`. -/
def mapGet {α β : Type} [DecidableEq α] (m : List (α × β)) (k : α) : Option β :=
  match m with
  | [] => none
  | (k', v) :: rest => if k' = k then some v else mapGet rest k

/-- Association-list write, modelling Go map assignment `m[k] = v`
(replaces an existing binding, otherwise appends). -/
def mapSet {α β : Type} [DecidableEq α] (m : List (α × β)) (k : α) (v : β) :
    List (α × β) :=
  match m with
  | [] => [(k, v)]
  | (k', v') :: rest => if k' = k then (k, v) :: rest else (k', v') :: mapSet rest k v

/-- `contains` from `internal/merge/merge.go`: linear membership scan. -/
def containsStr (slice : List Str) (item : Str) : Bool :=
  match slice with
  | [] => false
  | s :: rest => if s = item then true else containsStr rest item

/-- Go `strings.TrimSpace` white-space test (ASCII space classes). -/
def isSpaceChar (c : Char) : Bool :=
  c = ' ' || c = '\t' || c = '\n' || c = '\r' || c = '\x0b' || c = '\x0c'

/-- Go `strings.TrimSpace`, dropping white space from both ends. -/
def trimSpace (s : Str) : Str :=
  ((s.dropWhile isSpaceChar).reverse.dropWhile isSpaceChar).reverse

/-- Replace every occurrence of single character `c` by the string `r`
(the shape of each `strings.ReplaceAll` call in `escapeXML`). -/
def replaceAllChar (s : Str) (c : Char) (r : Str) : Str :=
  match s with
  | [] => []
  | x :: rest => (if x = c then r else [x]) ++ replaceAllChar rest c r

/-- `escapeXML` from `internal/merge/merge.go`: five sequential
`strings.ReplaceAll` passes, `&` first. -/
def escapeXML (s : Str) : Str :=
  let s1 := replaceAllChar s '&' (str "&amp;")
  let s2 := replaceAllChar s1 '<' (str "&lt;")
  let s3 := replaceAllChar s2 '>' (str "&gt;")
  let s4 := replaceAllChar s3 '"' (str "&quot;")
  replaceAllChar s4 '\'' (str "&#39;")

/-- Per-character escaping map; `escapeXML` is proved equal to its
pointwise extension. -/
def escChar (c : Char) : Str :=
  if c = '&' then str "&amp;"
  else if c = '<' then str "&lt;"
  else if c = '>' then str "&gt;"
  else if c = '"' then str "&quot;"
  else if c = '\'' then str "&#39;"
  else [c]

/-- `strings.Replace(s, pat, repl, 1)`: replace the first occurrence of
`pat` (non-empty in every call site modelled here). -/
def replaceFirst (s pat repl : Str) : Str :=
  match s with
  | [] => []
  | x :: rest =>
    if pat.isPrefixOf s then repl ++ s.drop pat.length
    else x :: replaceFirst rest pat repl

/-- Dynamic JSON-ish value universe: the Go code stores merge data as
`map[string]interface{}` decoded from JSON, so values are strings,
numbers, booleans, null, nested objects and arrays.  `jtime` models a
`time.Time` value (accepted by the date validator when a field set is
built by a caller directly).  Numbers carry their source literal: Go
decodes them to `float64` and re-renders via `%v`; no claim under study
depends on float re-formatting, so the literal is kept. -/
inductive JValue where
  | jnull
  | jbool (b : Bool)
  | jnum (lit : Str)
  | jstr (s : Str)
  | jarr (elems : List JValue)
  | jobj (entries : List (Str × JValue))
  | jtime (t : Int)

/-- `MergeData` from `internal/fields/models.go`: `map[string]interface{}`,
modelled as an association list in iteration order. -/
abbrev MergeData := List (Str × JValue)

/-- `FieldType` from `internal/fields/models.go`. -/
inductive FieldType where
  | fString
  | fNumber
  | fDate
  | fBoolean
  | fImage
  | fTable
  | fUnknown
deriving DecidableEq

/-- `FieldPosition` from `internal/fields/models.go`. -/
structure FieldPosition where
  XMLPath : Str
  NodeIndex : Int
  StartOffset : Int
  EndOffset : Int
  Page : Int
deriving DecidableEq

/-- `FieldFormat` from `internal/fields/models.go` (the `Prefix`/`Suffix`
fields are renamed `PrefixVal`/`SuffixVal`). -/
structure FieldFormat where
  DateFormat : Str
  NumberFormat : Str
  TextTransform : Str
  PrefixVal : Str
  SuffixVal : Str
deriving DecidableEq

/-- `MergeField` from `internal/fields/models.go`. -/
structure MergeField where
  Name : Str
  FType : FieldType
  Position : FieldPosition
  DefaultValue : Option JValue
  Required : Bool
  Format : Option FieldFormat

/-- A merge field with every optional part defaulted (the shape produced
by `ExtractFields`). -/
def mkField (name : String) (ty : FieldType) (required : Bool) : MergeField :=
  { Name := str name, FType := ty,
    Position := ⟨[], 0, 0, 0, 0⟩, DefaultValue := none,
    Required := required, Format := none }

/-- `MergeFieldSet` from `internal/fields/models.go` (second revision, the
one with the cached `normalizedFieldMap`).  The cache is modelled by
recomputing the map at each lookup: the Go code builds it lazily from
`nil` and the field list is never mutated afterwards, so every build
yields the same map. -/
structure MergeFieldSet where
  Fields : List MergeField
  DocumentName : Str
  ExtractedAt : Int
  TotalFields : Int

/-- `buildNormalizedFieldMap` from `internal/fields/models.go`:
inserts every field keyed by its normalized name, in source order —
a later field with the same normalized name overwrites the earlier one. -/
def buildNormalizedFieldMap (fields : List MergeField) :
    List (Str × MergeField) :=
  fields.foldl (fun m f => mapSet m (normName f.Name) f) []

/-- `GetFieldByName` from `internal/fields/models.go` (cached-map
revision): a normalized lookup in the map built above. -/
def GetFieldByName (mfs : MergeFieldSet) (name : Str) : Option MergeField :=
  mapGet (buildNormalizedFieldMap mfs.Fields) (normName name)

/-- `GetRequiredFields` from `internal/fields/models.go`. -/
def GetRequiredFields (mfs : MergeFieldSet) : List MergeField :=
  mfs.Fields.filter (fun f => f.Required)

/-- `ValidationResult` from `internal/fields/models.go`. -/
structure ValidationResult where
  Valid : Bool
  Errors : List Str
  Warnings : List Str
  MissingFields : List Str
deriving DecidableEq

/-- Leap-year rule used by Go's `time` package (proleptic Gregorian). -/
def isLeapYear (y : Nat) : Bool :=
  (y % 4 = 0 && y % 100 ≠ 0) || y % 400 = 0

/-- Days in a month, as validated by Go's `time.Parse`. -/
def daysInMonth (y m : Nat) : Nat :=
  if m = 2 then (if isLeapYear y then 29 else 28)
  else if m = 4 || m = 6 || m = 9 || m = 11 then 30
  else 31

/-- Numeric value of a run of decimal digits. -/
def digitsToNat (ds : Str) : Nat :=
  ds.foldl (fun n c => n * 10 + (c.toNat - '0'.toNat)) 0

/-- Go `time.Parse("2006-01-02", s)` success predicate: exactly
`YYYY-MM-DD` with a valid calendar date. -/
def parseDateOK (s : Str) : Bool :=
  match s with
  | [y1, y2, y3, y4, d1, m1, m2, d2, dd1, dd2] =>
    y1.isDigit && y2.isDigit && y3.isDigit && y4.isDigit &&
    d1 = '-' && d2 = '-' &&
    m1.isDigit && m2.isDigit && dd1.isDigit && dd2.isDigit &&
    (let y := digitsToNat [y1, y2, y3, y4]
     let m := digitsToNat [m1, m2]
     let d := digitsToNat [dd1, dd2]
     1 ≤ m && m ≤ 12 && 1 ≤ d && d ≤ daysInMonth y m)
  | _ => false

/-- `validateFieldValue` from `internal/fields/models.go`: `none` models a
nil error, `some msg` a non-nil error.  Error message text is modelled
without Go's `%T` type names (no claim depends on message contents). -/
def validateFieldValue (field : MergeField) (value : JValue) : Option Str :=
  match value with
  | JValue.jnull =>
    if field.Required then some (str "field is required but value is nil") else none
  | v =>
    match field.FType with
    | FieldType.fString =>
      match v with
      | JValue.jstr _ => none
      | _ => some (str "expected string")
    | FieldType.fNumber =>
      match v with
      | JValue.jnum _ => none
      | _ => some (str "expected number")
    | FieldType.fDate =>
      match v with
      | JValue.jstr s => if parseDateOK s then none else some (str "invalid date format")
      | JValue.jtime _ => none
      | _ => some (str "expected date string or time.Time")
    | FieldType.fBoolean =>
      match v with
      | JValue.jbool _ => none
      | _ => some (str "expected boolean")
    | _ => none

/-- The required-field presence scan inside `Validate`: a data key whose
normalized form equals the field's normalized name. -/
def requiredFound (data : MergeData) (fname : Str) : Bool :=
  data.any (fun kv => normName kv.1 == normName fname)

/-- One step of `Validate`'s required-field loop. -/
def requiredStep (data : MergeData) (r : ValidationResult) (f : MergeField) :
    ValidationResult :=
  if requiredFound data f.Name then r
  else { r with
         Valid := false
         MissingFields := r.MissingFields ++ [f.Name]
         Errors := r.Errors ++
           [str "Required field '" ++ f.Name ++ str "' is missing"] }

/-- One step of `Validate`'s data loop: unknown keys are silently
ignored, a type violation appends an error and clears `Valid`. -/
def dataStep (mfs : MergeFieldSet) (r : ValidationResult) (kv : Str × JValue) :
    ValidationResult :=
  match GetFieldByName mfs kv.1 with
  | none => r
  | some field =>
    match validateFieldValue field kv.2 with
    | none => r
    | some e => { r with
        Valid := false
        Errors := r.Errors ++
          [str "Invalid value for field '" ++ kv.1 ++ str "': " ++ e] }

/-- `Validate` from `internal/fields/models.go` (second revision: unknown
data keys are silently ignored, no warnings are produced internally). -/
def Validate (mfs : MergeFieldSet) (data : MergeData) : ValidationResult :=
  let r1 := (GetRequiredFields mfs).foldl (requiredStep data) ⟨true, [], [], []⟩
  data.foldl (dataStep mfs) r1

/-- Strip a literal from the head of the input. -/
def stripLit (lit s : Str) : Option Str :=
  if lit.isPrefixOf s then some (s.drop lit.length) else none

/-! ### JSON parsing

`parseMergeData` (both the `main` package and the `fields` package
version) and `DetectDuplicates` drive an `encoding/json` decoder over the
raw payload bytes.  The decoder is modelled at the character level: the
functions below reproduce the token reads the Go code performs, in the
order it performs them.  Number tokens are scanned permissively (any run
of number characters); this only widens the set of accepted inputs and no
claim depends on rejecting a malformed number. -/

/-- JSON white space skipped by the decoder between tokens. -/
def isJsonWS (c : Char) : Bool :=
  c = ' ' || c = '\t' || c = '\n' || c = '\r'

/-- Skip leading JSON white space. -/
def skipWS : Str → Str
  | [] => []
  | c :: rest => if isJsonWS c then skipWS rest else c :: rest

/-- Expect one specific character. -/
def expectChar (c : Char) (s : Str) : Except Str Str :=
  match s with
  | x :: rest => if x = c then Except.ok rest else Except.error (str "unexpected character")
  | [] => Except.error (str "unexpected end of input")

/-- Hexadecimal digit test. -/
def isHexDigit (c : Char) : Bool :=
  c.isDigit || ('a' ≤ c && c ≤ 'f') || ('A' ≤ c && c ≤ 'F')

/-- Hexadecimal digit value. -/
def hexVal (c : Char) : Nat :=
  if c.isDigit then c.toNat - '0'.toNat
  else if 'a' ≤ c && c ≤ 'f' then c.toNat - 'a'.toNat + 10
  else c.toNat - 'A'.toNat + 10

/-- Decode one simple string escape character. -/
def unescapeChar (c : Char) : Option Char :=
  if c = '"' then some '"'
  else if c = '\\' then some '\\'
  else if c = '/' then some '/'
  else if c = 'b' then some '\x08'
  else if c = 'f' then some '\x0c'
  else if c = 'n' then some '\n'
  else if c = 'r' then some '\r'
  else if c = 't' then some '\t'
  else none

/-- Parse the body of a JSON string literal (the opening quote already
consumed), returning the decoded content and the rest of the input. -/
def parseStringBody (fuel : Nat) (s : Str) : Except Str (Str × Str) :=
  match fuel with
  | 0 => Except.error (str "fuel exhausted")
  | fuel + 1 =>
    match s with
    | [] => Except.error (str "unterminated string")
    | c :: rest =>
      if c = '"' then Except.ok ([], rest)
      else if c = '\\' then
        match rest with
        | [] => Except.error (str "truncated escape")
        | e :: rest' =>
          if e = 'u' then
            match rest' with
            | h1 :: h2 :: h3 :: h4 :: rest2 =>
              if isHexDigit h1 && isHexDigit h2 && isHexDigit h3 && isHexDigit h4 then
                match parseStringBody fuel rest2 with
                | Except.ok (cs, rem) =>
                  Except.ok (Char.ofNat
                    (((hexVal h1 * 16 + hexVal h2) * 16 + hexVal h3) * 16 +
                      hexVal h4) :: cs, rem)
                | Except.error err => Except.error err
              else Except.error (str "invalid unicode escape")
            | _ => Except.error (str "truncated unicode escape")
          else
            match unescapeChar e with
            | some c0 =>
              match parseStringBody fuel rest' with
              | Except.ok (cs, rem) => Except.ok (c0 :: cs, rem)
              | Except.error err => Except.error err
            | none => Except.error (str "invalid escape")
      else
        match parseStringBody fuel rest with
        | Except.ok (cs, rem) => Except.ok (c :: cs, rem)
        | Except.error err => Except.error err

/-- Characters a number token may consist of. -/
def isNumChar (c : Char) : Bool :=
  c.isDigit || c = '-' || c = '+' || c = '.' || c = 'e' || c = 'E'

/-- Scan a number literal (non-empty run of number characters). -/
def parseNumLit (s : Str) : Except Str (Str × Str) :=
  let lit := s.takeWhile isNumChar
  if lit.isEmpty then Except.error (str "expected value")
  else Except.ok (lit, s.dropWhile isNumChar)

mutual

/-- Decode one JSON value (`decoder.Decode(&value)` into `interface{}`).
Nested objects follow `encoding/json` semantics: a repeated key in a
nested object overwrites the earlier binding. -/
def parseValue (fuel : Nat) (s : Str) : Except Str (JValue × Str) :=
  match fuel with
  | 0 => Except.error (str "fuel exhausted")
  | fuel + 1 =>
    match skipWS s with
    | [] => Except.error (str "unexpected end of input")
    | c :: rest =>
      if c = '"' then
        match parseStringBody fuel rest with
        | Except.ok (cs, rem) => Except.ok (JValue.jstr cs, rem)
        | Except.error e => Except.error e
      else if c = '\x7b' then
        match parseObjEntries fuel rest [] with
        | Except.ok (entries, rem) => Except.ok (JValue.jobj entries, rem)
        | Except.error e => Except.error e
      else if c = '[' then
        match skipWS rest with
        | [] => Except.error (str "unexpected end of input")
        | c2 :: rest2 =>
          if c2 = ']' then Except.ok (JValue.jarr [], rest2)
          else
            match parseArrElems fuel (c2 :: rest2) [] with
            | Except.ok (elems, rem) => Except.ok (JValue.jarr elems, rem)
            | Except.error e => Except.error e
      else if c = 't' then
        match stripLit (str "rue") rest with
        | some rem => Except.ok (JValue.jbool true, rem)
        | none => Except.error (str "invalid literal")
      else if c = 'f' then
        match stripLit (str "alse") rest with
        | some rem => Except.ok (JValue.jbool false, rem)
        | none => Except.error (str "invalid literal")
      else if c = 'n' then
        match stripLit (str "ull") rest with
        | some rem => Except.ok (JValue.jnull, rem)
        | none => Except.error (str "invalid literal")
      else if isNumChar c then
        match parseNumLit (c :: rest) with
        | Except.ok (lit, rem) => Except.ok (JValue.jnum lit, rem)
        | Except.error e => Except.error e
      else Except.error (str "expected value")

/-- Entries of a nested JSON object (opening brace consumed). -/
def parseObjEntries (fuel : Nat) (s : Str) (acc : List (Str × JValue)) :
    Except Str (List (Str × JValue) × Str) :=
  match fuel with
  | 0 => Except.error (str "fuel exhausted")
  | fuel + 1 =>
    match skipWS s with
    | [] => Except.error (str "expected object key")
    | c :: rest =>
      if c = '\x7d' then Except.ok (acc, rest)
      else if c = '"' then
        match parseStringBody fuel rest with
        | Except.error e => Except.error e
        | Except.ok (key, afterKey) =>
          match expectChar ':' (skipWS afterKey) with
          | Except.error e => Except.error e
          | Except.ok afterColon =>
            match parseValue fuel afterColon with
            | Except.error e => Except.error e
            | Except.ok (v, afterVal) =>
              match skipWS afterVal with
              | [] => Except.error (str "expected comma or closing brace")
              | c2 :: rest2 =>
                if c2 = ',' then parseObjEntries fuel rest2 (mapSet acc key v)
                else if c2 = '\x7d' then Except.ok (mapSet acc key v, rest2)
                else Except.error (str "expected comma or closing brace")
      else Except.error (str "expected object key")

/-- Elements of a non-empty JSON array (opening bracket consumed). -/
def parseArrElems (fuel : Nat) (s : Str) (acc : List JValue) :
    Except Str (List JValue × Str) :=
  match fuel with
  | 0 => Except.error (str "fuel exhausted")
  | fuel + 1 =>
    match parseValue fuel s with
    | Except.error e => Except.error e
    | Except.ok (v, afterVal) =>
      match skipWS afterVal with
      | [] => Except.error (str "expected comma or closing bracket")
      | c2 :: rest2 =>
        if c2 = ',' then parseArrElems fuel rest2 (acc ++ [v])
        else if c2 = ']' then Except.ok (acc ++ [v], rest2)
        else Except.error (str "expected comma or closing bracket")

end

/-- The key/value loop of `parseMergeData` from `main.go`: first-win by
*exact* key equality (`if _, exists := result[key]; exists`).  For a
non-first pair the decoder's `Token` call first consumes the `,`
separator; the loop exit (`More()` false, then the closing-brace `Token`)
consumes the `}` and reads nothing further. -/
def pairsMain (fuel : Nat) (s : Str) (result : MergeData) (first : Bool) :
    Except Str (MergeData × Str) :=
  match fuel with
  | 0 => Except.error (str "fuel exhausted")
  | fuel + 1 =>
    match skipWS s with
    | [] => Except.error (str "failed to read token")
    | c :: rest =>
      if c = '\x7d' then Except.ok (result, rest)
      else
        match (if first then Except.ok (c :: rest)
               else expectChar ',' (c :: rest)) with
        | Except.error e => Except.error e
        | Except.ok s2 =>
          match skipWS s2 with
          | [] => Except.error (str "expected string key")
          | c2 :: rest2 =>
            if c2 = '"' then
              match parseStringBody fuel rest2 with
              | Except.error e => Except.error e
              | Except.ok (key, afterKey) =>
                match expectChar ':' (skipWS afterKey) with
                | Except.error e => Except.error e
                | Except.ok afterColon =>
                  if (mapGet result key).isSome then
                    match parseValue fuel afterColon with
                    | Except.error e => Except.error e
                    | Except.ok (_, afterVal) => pairsMain fuel afterVal result false
                  else
                    match parseValue fuel afterColon with
                    | Except.error e => Except.error e
                    | Except.ok (v, afterVal) =>
                      pairsMain fuel afterVal (mapSet result key v) false
            else Except.error (str "expected string key")

/-- `parseMergeData` from `main.go`.  After the closing brace is read the
function returns; trailing input is never examined. -/
def mainParseMergeData (raw : Str) : Except Str MergeData :=
  match skipWS raw with
  | [] => Except.error (str "failed to read opening token")
  | c :: rest =>
    if c = '\x7b' then
      match pairsMain (raw.length + 1) rest [] true with
      | Except.ok (m, _) => Except.ok m
      | Except.error e => Except.error e
    else Except.error (str "expected opening brace")

/-- The key/value loop of `parseMergeData` from
`internal/fields/parse.go`: first-win by *normalized* key comparison.
The existing-key scan mirrors the source: it looks for a stored key with
the same normalized form and then tests `existingKey != ""` — so a
stored *empty* key never triggers the skip path, and the later value is
decoded and stored over it. -/
def pairsFields (fuel : Nat) (s : Str) (result : MergeData) (first : Bool) :
    Except Str (MergeData × Str) :=
  match fuel with
  | 0 => Except.error (str "fuel exhausted")
  | fuel + 1 =>
    match skipWS s with
    | [] => Except.error (str "failed to read token")
    | c :: rest =>
      if c = '\x7d' then Except.ok (result, rest)
      else
        match (if first then Except.ok (c :: rest)
               else expectChar ',' (c :: rest)) with
        | Except.error e => Except.error e
        | Except.ok s2 =>
          match skipWS s2 with
          | [] => Except.error (str "expected string key")
          | c2 :: rest2 =>
            if c2 = '"' then
              match parseStringBody fuel rest2 with
              | Except.error e => Except.error e
              | Except.ok (key, afterKey) =>
                match expectChar ':' (skipWS afterKey) with
                | Except.error e => Except.error e
                | Except.ok afterColon =>
                  let normalizedKey := normName key
                  let existingKey :=
                    ((result.find? (fun kv => normName kv.1 == normalizedKey)).map
                      Prod.fst).getD []
                  if existingKey ≠ [] then
                    match parseValue fuel afterColon with
                    | Except.error e => Except.error e
                    | Except.ok (_, afterVal) => pairsFields fuel afterVal result false
                  else
                    match parseValue fuel afterColon with
                    | Except.error e => Except.error e
                    | Except.ok (v, afterVal) =>
                      pairsFields fuel afterVal (mapSet result key v) false
            else Except.error (str "expected string key")

/-- `parseMergeData` from `internal/fields/parse.go`. -/
def fieldsParseMergeData (raw : Str) : Except Str MergeData :=
  match skipWS raw with
  | [] => Except.error (str "failed to read opening token")
  | c :: rest =>
    if c = '\x7b' then
      match pairsFields (raw.length + 1) rest [] true with
      | Except.ok (m, _) => Except.ok m
      | Except.error e => Except.error e
    else Except.error (str "expected opening brace")

/-- The key/value loop of `DetectDuplicates` from
`internal/fields/parse.go`: collects the original-case key of every
occurrence whose normalized form was already seen; any decoding error
returns the duplicates collected so far. -/
def dupLoop (fuel : Nat) (s : Str) (seen : List Str) (dups : List Str)
    (first : Bool) : List Str :=
  match fuel with
  | 0 => dups
  | fuel + 1 =>
    match skipWS s with
    | [] => dups
    | c :: rest =>
      if c = '\x7d' then dups
      else
        match (if first then Except.ok (c :: rest)
               else expectChar ',' (c :: rest)) with
        | Except.error _ => dups
        | Except.ok s2 =>
          match skipWS s2 with
          | [] => dups
          | c2 :: rest2 =>
            if c2 = '"' then
              match parseStringBody fuel rest2 with
              | Except.error _ => dups
              | Except.ok (key, afterKey) =>
                match expectChar ':' (skipWS afterKey) with
                | Except.error _ => dups
                | Except.ok afterColon =>
                  match parseValue fuel afterColon with
                  | Except.error _ => dups
                  | Except.ok (_, afterVal) =>
                    let normalizedKey := normName key
                    if seen.contains normalizedKey then
                      dupLoop fuel afterVal seen (dups ++ [key]) false
                    else
                      dupLoop fuel afterVal (seen ++ [normalizedKey]) dups false
            else dups
  termination_by fuel

/-- `DetectDuplicates` from `internal/fields/parse.go`: best-effort
duplicate-key report; malformed or non-object input yields `[]`. -/
def DetectDuplicates (raw : Str) : List Str :=
  if raw.isEmpty then []
  else
    match skipWS raw with
    | [] => []
    | c :: rest =>
      if c = '\x7b' then dupLoop (raw.length + 1) rest [] [] true
      else []

/-- `fmt.Sprintf("%v", value)` as used by `getCaseInsensitiveValue`.
Strings print verbatim, booleans as `true`/`false`, nil as `<nil>`;
numbers print their (canonical) literal — Go re-renders the parsed
`float64`, which agrees on canonical literals and no claim depends on
float re-formatting.  The exact `%v` text of composite values (maps,
slices, `time.Time`) is not modelled; no claim depends on it. -/
def renderJValue : JValue → Str
  | JValue.jstr s => s
  | JValue.jbool true => str "true"
  | JValue.jbool false => str "false"
  | JValue.jnum lit => lit
  | JValue.jnull => str "<nil>"
  | JValue.jarr _ => str "[composite]"
  | JValue.jobj _ => str "map[composite]"
  | JValue.jtime _ => str "time.Time"

/-- `getCaseInsensitiveValue` from `internal/merge/merge.go`: exact map
lookup first, then the first key (in iteration order) equal under
`strings.EqualFold`. -/
def getCaseInsensitiveValue (data : MergeData) (fieldName : Str) : Option Str :=
  match mapGet data fieldName with
  | some v => some (renderJValue v)
  | none =>
    match data.find? (fun kv => equalFold kv.1 fieldName) with
    | some kv => some (renderJValue kv.2)
    | none => none

/-! ### The merge engine's placeholder scan

The current revision of `internal/merge/merge.go` locates placeholders
with the regular expression `<w:t[^>]*>«([^»]+)»</w:t>` and rewrites each
match through `ReplaceAllStringFunc`.  On this pattern the regex engine
is deterministic: `[^>]*` runs to the first `>`, `[^»]+` to the first
`»`, and matching is leftmost, non-overlapping.  `scanDoc` below
reproduces that scan, splitting the document into literal text and
match segments. -/

/-- One segment of the scanned document: literal text, or a regex match
with its attribute part and captured field text. -/
inductive DocSeg where
  | text (s : Str)
  | fld (attrs cap : Str)
deriving DecidableEq

/-- The full text of a match segment. -/
def fldMatchText (attrs cap : Str) : Str :=
  str "<w:t" ++ attrs ++ str ">«" ++ cap ++ str "»</w:t>"

/-- Concatenate segments back into document text. -/
def joinSegs : List DocSeg → Str
  | [] => []
  | DocSeg.text s :: rest => s ++ joinSegs rest
  | DocSeg.fld attrs cap :: rest => fldMatchText attrs cap ++ joinSegs rest

/-- Split at the first occurrence of `stop` (which must occur): the
behaviour of `[^X]*X` in the placeholder regex. -/
def takeUntil (stop : Char) (s : Str) : Option (Str × Str) :=
  let pre := s.takeWhile (fun c => c ≠ stop)
  let post := s.drop pre.length
  if post.head? = some stop then some (pre, post.tail) else none

/-- Try to match `<w:t[^>]*>«([^»]+)»</w:t>` at the head of `s`,
returning attribute text, capture and the rest of the input.  On this
pattern the regex engine is deterministic: `[^>]*` runs to the first
`>`, `[^»]+` to the first `»` (and must be non-empty). -/
def matchFldAt (s : Str) : Option (Str × Str × Str) :=
  match stripLit (str "<w:t") s with
  | none => none
  | some s1 =>
    match takeUntil '>' s1 with
    | none => none
    | some (attrs, s2) =>
      match s2 with
      | '«' :: s3 =>
        match takeUntil '»' s3 with
        | none => none
        | some (cap, s4) =>
          if cap.isEmpty then none
          else
            match stripLit (str "</w:t>") s4 with
            | none => none
            | some r => some (attrs, cap, r)
      | _ => none

/-- Leftmost non-overlapping scan for the placeholder pattern. -/
def scanDocAux (fuel : Nat) (s : Str) (pending : Str) (acc : List DocSeg) :
    List DocSeg :=
  match fuel with
  | 0 => acc ++ (if pending.isEmpty then [] else [DocSeg.text pending])
  | fuel + 1 =>
    match s with
    | [] => acc ++ (if pending.isEmpty then [] else [DocSeg.text pending])
    | c :: rest =>
      match matchFldAt s with
      | some (attrs, cap, rest') =>
        scanDocAux fuel rest' []
          (acc ++ (if pending.isEmpty then [] else [DocSeg.text pending]) ++
            [DocSeg.fld attrs cap])
      | none => scanDocAux fuel rest (pending ++ [c]) acc

/-- Split a document into placeholder matches and surrounding text. -/
def scanDoc (s : Str) : List DocSeg :=
  scanDocAux (s.length + 1) s [] []

/-- The field-name extraction the replacement callback performs on a
match: the regex `«([^»]+)»` applied to the match text (first `«`, then
the non-empty run up to the next `»`). -/
def extractFieldName (matchStr : Str) : Option Str :=
  match matchStr.dropWhile (fun c => c ≠ '«') with
  | marker :: rest =>
    if marker = '«' then
      let cap := rest.takeWhile (fun c => c ≠ '»')
      if cap.isEmpty then none
      else if (rest.drop cap.length).head? = some '»' then some cap else none
    else none
  | [] => none

/-- The body of the `ReplaceAllStringFunc` callback in `replaceFields`
(current revision of `internal/merge/merge.go`): skip already-processed
names, substitute via `strings.Replace(match, "«"+fieldName+"»", esc, 1)`
when data is available, otherwise record the name as skipped. -/
def processFld (data : MergeData) (processed skipped : List Str)
    (attrs cap : Str) : Str × List Str × List Str :=
  let matchStr := fldMatchText attrs cap
  match extractFieldName matchStr with
  | none => (matchStr, processed, skipped)
  | some rawName =>
    let fieldName := trimSpace rawName
    if containsStr processed fieldName then (matchStr, processed, skipped)
    else
      let processed' := processed ++ [fieldName]
      match getCaseInsensitiveValue data fieldName with
      | some value =>
        (replaceFirst matchStr (str "«" ++ fieldName ++ str "»") (escapeXML value),
         processed', skipped)
      | none =>
        if containsStr skipped fieldName then (matchStr, processed', skipped)
        else (matchStr, processed', skipped ++ [fieldName])

/-- Fold the callback over the scanned segments, rebuilding the output
text (what `ReplaceAllStringFunc` returns) together with the final
`processed` set and `skipped` list. -/
def replaceFieldsAux (data : MergeData) :
    List DocSeg → List Str → List Str → Str × List Str × List Str
  | [], processed, skipped => ([], processed, skipped)
  | DocSeg.text t :: rest, processed, skipped =>
    let (out, p, sk) := replaceFieldsAux data rest processed skipped
    (t ++ out, p, sk)
  | DocSeg.fld attrs cap :: rest, processed, skipped =>
    let (txt, p', sk') := processFld data processed skipped attrs cap
    let (out, p, sk) := replaceFieldsAux data rest p' sk'
    (txt ++ out, p, sk)

/-- `replaceFields` from `internal/merge/merge.go` (current revision). -/
def replaceFields (documentXML : Str) (data : MergeData) : Str × List Str :=
  let (out, _, skipped) := replaceFieldsAux data (scanDoc documentXML) [] []
  (out, skipped)

/-- `replaceFieldValues` from `internal/merge/merge.go` (current
revision): delegates to `replaceFields`; its error result is always
nil in the source, so it is modelled as a pure function. -/
def replaceFieldValues (documentXML : Str) (data : MergeData) : Str × List Str :=
  replaceFields documentXML data

/-! ### Archive codec

`archive/zip` is an external library; it is modelled at the granularity
of the entry sequence a writer serializes: the library guarantees that
the entries written into a container are exactly the entries a reader
recovers from its bytes.  The repository-level logic on top of it —
which entries get written, the write-to-directory error, and the
directory skip on reading — is modelled from the source. -/

/-- A serialized container, modelled by its entry sequence. -/
structure ZipArchive where
  entries : List (Str × Str)
deriving DecidableEq

/-- A zip entry whose name ends in `/` is a directory entry. -/
def isDirName (n : Str) : Bool :=
  match n.getLast? with
  | some c => c = '/'
  | none => false

/-- `DocxFile` from `internal/docx/unzip.go`: member path → content. -/
structure DocxFile where
  Files : List (Str × Str)

/-- `Rebuild` from `internal/docx/zip.go`: writes every member into a
fresh container.  Writing non-empty content to a directory-named entry
fails (`zip: write to directory`), as `archive/zip` does. -/
def Rebuild (doc : DocxFile) : Except Str ZipArchive :=
  match go doc.Files [] with
  | Except.ok es => Except.ok ⟨es⟩
  | Except.error e => Except.error e
where
  go : List (Str × Str) → List (Str × Str) → Except Str (List (Str × Str))
    | [], acc => Except.ok acc
    | (n, c) :: rest, acc =>
      if isDirName n && !c.isEmpty then
        Except.error (str "failed to write content for file: zip: write to directory")
      else go rest (acc ++ [(n, c)])

/-- `UnzipDocx` from `internal/docx/unzip.go` applied to a well-formed
container: every non-directory entry is read into the member map
(`docx.Files[file.Name] = content`, later duplicates overwriting). -/
def UnzipDocx (z : ZipArchive) : DocxFile :=
  ⟨z.entries.foldl (fun fs e => if isDirName e.1 then fs else mapSet fs e.1 e.2) []⟩

/-- `GetDocumentXML` from `internal/docx/unzip.go`. -/
def GetDocumentXML (d : DocxFile) : Except Str Str :=
  match mapGet d.Files (str "word/document.xml") with
  | some c => Except.ok c
  | none => Except.error (str "document.xml not found in DOCX file")

/-- `rebuildDocxArchive` from `internal/merge/merge.go`: the same
write-every-member loop as `docx.Rebuild`. -/
def rebuildDocxArchive (doc : DocxFile) : Except Str ZipArchive :=
  Rebuild doc

/-- `PerformMerge` from `internal/merge/merge.go` (current revision). -/
def PerformMerge (doc : DocxFile) (data : MergeData) :
    Except Str (ZipArchive × List Str) :=
  match GetDocumentXML doc with
  | Except.error e => Except.error e
  | Except.ok documentXML =>
    let (updatedXML, skippedFields) := replaceFieldValues documentXML data
    let updatedFiles := mapSet doc.Files (str "word/document.xml") updatedXML
    match rebuildDocxArchive ⟨updatedFiles⟩ with
    | Except.error e => Except.error e
    | Except.ok z => Except.ok (z, skippedFields)

/-! ### The earlier complex-field substitution

An earlier revision of `internal/merge/merge.go` (still in the
repository's history and cited by the spec) handles the
begin/instrText/separate/end encoding in `replaceComplexFields`.  The
found-value branch of its callback is modelled below; the `separate`
and `end` marker tags, matched there by `<w:fldChar[^>]*w:fldCharType=
"separate"[^>]*/?>` (resp. `"end"`), are modelled by their canonical
literal forms. -/

def sepTagLit : Str := str "<w:fldChar w:fldCharType=\"separate\"/>"

def endTagLit : Str := str "<w:fldChar w:fldCharType=\"end\"/>"

def rprOpenLit : Str := str "<w:rPr>"

def rprCloseLit : Str := str "</w:rPr>"

/-- Index of the first occurrence of `pat` in `s`. -/
def firstOccurIdx (s pat : Str) : Option Nat :=
  match s with
  | [] => if pat.isEmpty then some 0 else none
  | _ :: rest =>
    if pat.isPrefixOf s then some 0
    else (firstOccurIdx rest pat).map (· + 1)

/-- The `separateRegex.FindString(match)` step: the leftmost-shortest
span from a `separate` marker through an `end` marker. -/
def findSeparateMatch (m : Str) : Option Str :=
  match firstOccurIdx m sepTagLit with
  | none => none
  | some i =>
    let tailFromSep := m.drop i
    let afterSep := tailFromSep.drop sepTagLit.length
    match firstOccurIdx afterSep endTagLit with
    | none => none
    | some j => some (tailFromSep.take (sepTagLit.length + j + endTagLit.length))

/-- The `formattingRegex.FindString(separateMatch)` step: the
leftmost-shortest `<w:rPr>…</w:rPr>` span. -/
def findFormatting (s : Str) : Option Str :=
  match firstOccurIdx s rprOpenLit with
  | none => none
  | some i =>
    let fromOpen := s.drop i
    let afterOpen := fromOpen.drop rprOpenLit.length
    match firstOccurIdx afterOpen rprCloseLit with
    | none => none
    | some j => some (fromOpen.take (rprOpenLit.length + j + rprCloseLit.length))

/-- The found-value branch of the `replaceComplexFields` callback
(earlier revision, lines 170–194): replace the `separate`–`end` span with
a run reusing the formatting found there, else an unformatted run; with
no `separate` section at all, fall back to a bare run. -/
def processComplexMatch (m : Str) (value : Str) : Str :=
  match findSeparateMatch m with
  | some separateMatch =>
    let replacementRun :=
      match findFormatting separateMatch with
      | some formattingMatch =>
        str "<w:r>" ++ formattingMatch ++ str "<w:t>" ++ escapeXML value ++
          str "</w:t></w:r>"
      | none => str "<w:r><w:t>" ++ escapeXML value ++ str "</w:t></w:r>"
    replaceFirst m separateMatch replacementRun
  | none => str "<w:r><w:t>" ++ escapeXML value ++ str "</w:t></w:r>"

/-! ### Derived notions used by the theorem statements -/

/-- Boolean error test for `Except`. -/
def isErrB {ε α : Type} : Except ε α → Bool
  | Except.error _ => true
  | Except.ok _ => false

/-- The skipped list the claim describes: at the first encounter of each
distinct (trimmed) field name, the name is recorded exactly once if the
data provides no case-insensitive value for it. -/
def skippedSpec (data : MergeData) : List DocSeg → List Str → List Str
  | [], _ => []
  | DocSeg.text _ :: rest, seen => skippedSpec data rest seen
  | DocSeg.fld _ cap :: rest, seen =>
    let n := trimSpace cap
    if containsStr seen n then skippedSpec data rest seen
    else
      match getCaseInsensitiveValue data n with
      | some _ => skippedSpec data rest (seen ++ [n])
      | none => n :: skippedSpec data rest (seen ++ [n])

/-- Specification-side substitution, following the (amended) claim text:
placeholders are processed per distinct trimmed name, the first
occurrence of a name with available data has its `«name»` payload
replaced by the escaped value, every other occurrence is reproduced
exactly as found. -/
def substSpec (data : MergeData) : List DocSeg → List Str → Str
  | [], _ => []
  | DocSeg.text t :: rest, seen => t ++ substSpec data rest seen
  | DocSeg.fld attrs cap :: rest, seen =>
    let n := trimSpace cap
    if containsStr seen n then fldMatchText attrs cap ++ substSpec data rest seen
    else
      match getCaseInsensitiveValue data n with
      | some v =>
        (str "<w:t" ++ attrs ++ str ">" ++ escapeXML v ++ str "</w:t>") ++
          substSpec data rest (seen ++ [n])
      | none => fldMatchText attrs cap ++ substSpec data rest (seen ++ [n])

/-- Well-formedness of a segment list as produced by the scanner, plus
the two side conditions the amended substitution claim needs: captured
text carries no surrounding white space and attribute text contains no
`«` marker. -/
def segsWF (segs : List DocSeg) : Bool :=
  segs.all (fun s => match s with
    | DocSeg.text _ => true
    | DocSeg.fld attrs cap =>
      !cap.isEmpty && !cap.contains '»' && !attrs.contains '>' &&
        !attrs.contains '«' && trimSpace cap == cap)

/-- No placeholder match in the segment list. -/
def noFldB (segs : List DocSeg) : Bool :=
  segs.all (fun s => match s with
    | DocSeg.text _ => true
    | DocSeg.fld _ _ => false)

/-- Number of required fields a data set fails to supply. -/
def missingCount (mfs : MergeFieldSet) (data : MergeData) : Nat :=
  ((GetRequiredFields mfs).filter (fun f => !requiredFound data f.Name)).length

/-- Number of data entries that match a field and fail its type check. -/
def violationCount (mfs : MergeFieldSet) (data : MergeData) : Nat :=
  (data.filter (fun kv =>
    match GetFieldByName mfs kv.1 with
    | some field => (validateFieldValue field kv.2).isSome
    | none => false)).length

/-! ### Concrete examples used by counterexamples and witnesses -/

/-- A field set with two fields whose names differ only in case. -/
def exSetC1 : MergeFieldSet :=
  ⟨[mkField "A" FieldType.fString false, mkField "a" FieldType.fString false],
    str "doc", 0, 2⟩

/-! ### Map lemmas -/

theorem mapGet_mapSet {α β : Type} [DecidableEq α] (m : List (α × β)) (k q : α)
    (v : β) : mapGet (mapSet m k v) q = if k = q then some v else mapGet m q := by
  induction m with
  | nil => simp [mapSet, mapGet]
  | cons p t ih =>
    obtain ⟨k', v'⟩ := p
    by_cases hk : k' = k
    · subst hk
      by_cases h1 : k' = q <;> simp [mapSet, mapGet, h1]
    · by_cases h1 : k' = q
      · subst h1
        by_cases h2 : k = k'
        · exact absurd h2.symm hk
        · simp [mapSet, mapGet, hk, h2]
      · by_cases h2 : k = q
        · subst h2
          simp [mapSet, mapGet, hk, h1, ih]
        · simp [mapSet, mapGet, hk, h1, h2, ih]

theorem getFieldByName_eq_find_reverse (mfs : MergeFieldSet) (name : Str) :
    GetFieldByName mfs name =
      mfs.Fields.reverse.find? (fun f => normName f.Name == normName name) := by
  unfold GetFieldByName buildNormalizedFieldMap
  generalize normName name = k
  induction mfs.Fields using List.reverseRecOn with
  | nil => simp [mapGet]
  | append_singleton t f ih =>
    rw [List.foldl_append]
    simp only [List.foldl_cons, List.foldl_nil]
    rw [mapGet_mapSet, List.reverse_append]
    simp only [List.reverse_cons, List.reverse_nil, List.nil_append,
      List.singleton_append, List.find?]
    by_cases h : normName f.Name = k
    · simp [h]
    · have hb : (normName f.Name == k) = false := by
        simpa using h
      simp [hb, h, ih]

/-- Claim C1 (counterexample): the claim says a lookup resolves to the
*earlier* of two case-insensitively equal field names.  In the set
`[A, a]`, looking up `"a"` (and `"A"`) resolves to the *later* field
`a`, not the earlier field `A`: `buildNormalizedFieldMap` lets later
fields overwrite earlier ones under the same normalized key. -/
theorem getFieldByName_returns_later_field :
    (GetFieldByName exSetC1 (str "a")).map MergeField.Name = some (str "a") ∧
    (GetFieldByName exSetC1 (str "A")).map MergeField.Name = some (str "a") ∧
    exSetC1.Fields.head?.map MergeField.Name = some (str "A") ∧
    str "a" ≠ str "A" := by
  refine ⟨rfl, rfl, rfl, by decide⟩

/-- Claim C1 (amended): for every `MergeFieldSet` and lookup name,
`GetFieldByName` returns the *last* field in source order whose name
case-insensitively equals the lookup name (the first match of the
reversed field sequence), and `none` when no field matches; with two
fields differing only in case, either spelling resolves to the later
field. -/
theorem getFieldByName_last_match (mfs : MergeFieldSet) (name : Str) :
    GetFieldByName mfs name =
      mfs.Fields.reverse.find? (fun f => normName f.Name == normName name) := by
  rw [getFieldByName_eq_find_reverse]

/-- Claim C2 (code bug): `parseMergeData` in `internal/fields/parse.go`
documents and intends first-occurrence-wins for duplicate keys, but its
`existingKey != ""` sentinel never fires for a stored *empty* key: on
input `\x7b"":"x","":"y"\x7d` the later value `"y"` is decoded and
overwrites `"x"` instead of being structurally skipped.  Additionally,
the `main.go` copy of `parseMergeData` deduplicates by *exact* key
equality only: on `\x7b"A":1,"a":2\x7d` it keeps both spellings, unlike
the case-fold normalization the claim describes. -/
theorem parseMergeData_duplicate_key_divergence :
    fieldsParseMergeData (str "\x7b\"\":\"x\",\"\":\"y\"\x7d") =
      Except.ok [(str "", JValue.jstr (str "y"))] ∧
    mainParseMergeData (str "\x7b\"A\":1,\"a\":2\x7d") =
      Except.ok [(str "A", JValue.jnum (str "1")), (str "a", JValue.jnum (str "2"))] :=
  ⟨rfl, rfl⟩

theorem mapGet_eq_none_iff {α β : Type} [DecidableEq α] (m : List (α × β)) (k : α) :
    mapGet m k = none ↔ k ∉ m.map Prod.fst := by
  induction m with
  | nil => simp [mapGet]
  | cons p t ih =>
    obtain ⟨k', v'⟩ := p
    by_cases h : k' = k
    · subst h
      simp [mapGet]
    · have hk : ¬k = k' := fun hc => h hc.symm
      simp only [mapGet, if_neg h, List.map_cons, List.mem_cons]
      rw [ih]
      simp [hk]

theorem mapSet_append_of_not_mem {α β : Type} [DecidableEq α] (m : List (α × β))
    (k : α) (v : β) (h : k ∉ m.map Prod.fst) : mapSet m k v = m ++ [(k, v)] := by
  induction m with
  | nil => simp [mapSet]
  | cons p t ih =>
    obtain ⟨k', v'⟩ := p
    simp only [List.map_cons, List.mem_cons] at h
    push_neg at h
    simp [mapSet, Ne.symm h.1, ih h.2]

theorem rebuild_go_no_dir (l : List (Str × Str))
    (hdir : ∀ e ∈ l, isDirName e.1 = false) :
    ∀ acc, Rebuild.go l acc = Except.ok (acc ++ l) := by
  induction l with
  | nil => intro acc; simp [Rebuild.go]
  | cons e t ih =>
    intro acc
    have he : isDirName e.1 = false := hdir e (List.mem_cons_self e t)
    have ht : ∀ x ∈ t, isDirName x.1 = false := fun x hx => hdir x (List.mem_cons_of_mem e hx)
    obtain ⟨n, c⟩ := e
    simp only [Rebuild.go, he, Bool.false_and, Bool.false_eq_true, if_neg,
      Bool.not_eq_true]
    rw [ih ht]
    simp

theorem unzip_fold_no_dir (l : List (Str × Str))
    (hnd : (l.map Prod.fst).Nodup) (hdir : ∀ e ∈ l, isDirName e.1 = false) :
    ∀ acc, (∀ e ∈ l, e.1 ∉ acc.map Prod.fst) →
      l.foldl (fun fs e => if isDirName e.1 then fs else mapSet fs e.1 e.2) acc =
        acc ++ l := by
  induction l with
  | nil => intro acc _; simp
  | cons e t ih =>
    intro acc hfresh
    have he : isDirName e.1 = false := hdir e (List.mem_cons_self e t)
    have hset : mapSet acc e.1 e.2 = acc ++ [e] := by
      rw [mapSet_append_of_not_mem acc e.1 e.2 (hfresh e (List.mem_cons_self e t))]
    simp only [List.foldl_cons, he, Bool.false_eq_true, if_neg, Bool.not_eq_true,
      if_false]
    rw [hset]
    rw [ih (by simpa using hnd.of_cons) (fun x hx => hdir x (List.mem_cons_of_mem e hx))
      (acc ++ [e]) ?_]
    · simp
    · intro x hx
      simp only [List.map_append, List.mem_append, List.map_cons, List.map_nil,
        List.mem_singleton]
      push_neg
      refine ⟨hfresh x (List.mem_cons_of_mem e hx), ?_⟩
      simp only [List.map_cons, List.nodup_cons] at hnd
      intro hcontra
      exact hnd.1 (hcontra ▸ (List.mem_map_of_mem Prod.fst hx))

/-- Claim C3: for every archive member mapping (no directory-named
members — those are excluded by the claim's parenthetical, since the
reader drops directory entries), `Rebuild` succeeds and re-opening the
rebuilt container with `UnzipDocx` recovers exactly the mapping that was
passed in. -/
theorem rebuild_unzip_roundTrip (files : List (Str × Str))
    (hnd : (files.map Prod.fst).Nodup)
    (hdir : ∀ e ∈ files, isDirName e.1 = false) :
    Rebuild ⟨files⟩ = Except.ok ⟨files⟩ ∧ (UnzipDocx ⟨files⟩).Files = files := by
  constructor
  · unfold Rebuild
    rw [rebuild_go_no_dir files hdir []]
    simp
  · unfold UnzipDocx
    simpa using unzip_fold_no_dir files hnd hdir [] (by simp)

/-- Claim C3 (witness): a concrete two-member archive round-trips. -/
theorem rebuild_unzip_roundTrip_witness :
    Rebuild ⟨[(str "word/document.xml", str "<w:document/>"),
              (str "word/styles.xml", str "s")]⟩ =
      Except.ok ⟨[(str "word/document.xml", str "<w:document/>"),
                  (str "word/styles.xml", str "s")]⟩ ∧
    (UnzipDocx ⟨[(str "word/document.xml", str "<w:document/>"),
                 (str "word/styles.xml", str "s")]⟩).Files =
      [(str "word/document.xml", str "<w:document/>"),
       (str "word/styles.xml", str "s")] :=
  rebuild_unzip_roundTrip _ (by decide) (by decide)

/-! ### Scanner lemmas -/

theorem joinSegs_append (a b : List DocSeg) :
    joinSegs (a ++ b) = joinSegs a ++ joinSegs b := by
  induction a with
  | nil => simp [joinSegs]
  | cons s t ih =>
    cases s <;> simp [joinSegs, ih]

theorem drop_takeWhile_length (p : Char → Bool) (l : Str) :
    l.drop (l.takeWhile p).length = l.dropWhile p := by
  calc l.drop (l.takeWhile p).length
      = (l.takeWhile p ++ l.dropWhile p).drop (l.takeWhile p).length := by
        rw [List.takeWhile_append_dropWhile]
    _ = l.dropWhile p := List.drop_left _ _


theorem stripLit_some (lit s r : Str) (h : stripLit lit s = some r) :
    s = lit ++ r := by
  unfold stripLit at h
  split at h
  case isFalse => exact absurd h (by simp)
  case isTrue hpre =>
    obtain ⟨t, ht⟩ := List.isPrefixOf_iff_prefix.mp hpre
    rw [Option.some_inj] at h
    rw [← h, ← ht, List.drop_append_of_le_length le_rfl]
    simp

theorem takeUntil_some (stop : Char) (s pre rest : Str)
    (h : takeUntil stop s = some (pre, rest)) :
    s = pre ++ stop :: rest ∧ pre = s.takeWhile (fun c => c ≠ stop) := by
  unfold takeUntil at h
  dsimp only at h
  rw [drop_takeWhile_length] at h
  cases hd : s.dropWhile (fun c => decide (c ≠ stop)) with
  | nil => rw [hd] at h; exact absurd h (by simp)
  | cons c rest' =>
    rw [hd] at h
    by_cases hc : c = stop
    case neg =>
      rw [if_neg (by simp [hc])] at h
      exact absurd h (by simp)
    case pos =>
      subst hc
      rw [if_pos (by simp)] at h
      rw [Option.some_inj, Prod.mk.injEq] at h
      obtain ⟨h1, h2⟩ := h
      subst h1
      refine ⟨?_, rfl⟩
      conv_lhs => rw [← List.takeWhile_append_dropWhile
        (p := fun ch => decide (ch ≠ c)) (l := s)]
      rw [hd]
      simp [← h2]

theorem matchFldAt_decomp (s a c r : Str) (h : matchFldAt s = some (a, c, r)) :
    s = fldMatchText a c ++ r := by
  unfold matchFldAt at h
  cases h1 : stripLit (str "<w:t") s with
  | none => rw [h1] at h; exact absurd h (by simp)
  | some s1 =>
    rw [h1] at h
    dsimp only at h
    cases h2 : takeUntil '>' s1 with
    | none => rw [h2] at h; exact absurd h (by simp)
    | some p2 =>
      obtain ⟨attrs, s2⟩ := p2
      rw [h2] at h
      dsimp only at h
      split at h
      case h_2 => exact absurd h (by simp)
      case h_1 s3 =>
        cases h3 : takeUntil '»' s3 with
        | none => rw [h3] at h; exact absurd h (by simp)
        | some p3 =>
          obtain ⟨cap, s4⟩ := p3
          rw [h3] at h
          dsimp only at h
          split at h
          case isTrue => exact absurd h (by simp)
          case isFalse hcap =>
            cases h4 : stripLit (str "</w:t>") s4 with
            | none => rw [h4] at h; exact absurd h (by simp)
            | some r' =>
              rw [h4] at h
              dsimp only at h
              rw [Option.some_inj, Prod.mk.injEq] at h
              obtain ⟨ha, h⟩ := h
              rw [Prod.mk.injEq] at h
              obtain ⟨hcp, hr⟩ := h
              subst ha hcp hr
              have e1 := stripLit_some _ _ _ h1
              have e2 := (takeUntil_some _ _ _ _ h2).1
              have e3 := (takeUntil_some _ _ _ _ h3).1
              have e4 := stripLit_some _ _ _ h4
              rw [e1, e2, e3, e4]
              simp [fldMatchText, str]

theorem matchFldAt_rest_lt (s a c r : Str) (h : matchFldAt s = some (a, c, r)) :
    r.length < s.length := by
  rw [matchFldAt_decomp s a c r h]
  simp [fldMatchText, str]
  omega

theorem scanDocAux_join (fuel : Nat) :
    ∀ (s pending : Str) (acc : List DocSeg), s.length < fuel →
      joinSegs (scanDocAux fuel s pending acc) =
        joinSegs acc ++ pending ++ s := by
  induction fuel with
  | zero => intro s pending acc h; exact absurd h (by omega)
  | succ fuel ih =>
    intro s pending acc h
    cases s with
    | nil =>
      by_cases hp : pending.isEmpty
      · simp only [scanDocAux, hp, if_true]
        simp [List.isEmpty_iff.mp hp]
      · simp only [scanDocAux, hp, if_false]
        rw [joinSegs_append]
        simp [joinSegs]
    | cons ch rest =>
      simp only [scanDocAux]
      cases hm : matchFldAt (ch :: rest) with
      | some trip =>
        obtain ⟨a, c, r⟩ := trip
        have hlt : r.length < fuel := by
          have := matchFldAt_rest_lt _ _ _ _ hm
          simp only [List.length_cons] at h this
          omega
        rw [ih r [] _ hlt]
        rw [joinSegs_append, joinSegs_append]
        have hd := matchFldAt_decomp _ _ _ _ hm
        by_cases hp : pending.isEmpty
        · simp only [hp, if_true]
          simp [joinSegs, List.isEmpty_iff.mp hp, hd]
        · simp only [hp, if_false]
          simp [joinSegs, hd]
      | none =>
        have hlen : rest.length + 1 < fuel + 1 := by simpa using h
        rw [ih rest (pending ++ [ch]) acc (by omega)]
        simp

theorem scanDoc_join (s : Str) : joinSegs (scanDoc s) = s := by
  unfold scanDoc
  rw [scanDocAux_join (s.length + 1) s [] [] (by omega)]
  simp [joinSegs]

theorem matchFldAt_has_marker (s a c r : Str)
    (h : matchFldAt s = some (a, c, r)) : '«' ∈ s := by
  rw [matchFldAt_decomp _ _ _ _ h]
  simp [fldMatchText, str]

theorem scanDocAux_no_marker (fuel : Nat) :
    ∀ (s pending : Str) (acc : List DocSeg), s.length < fuel → '«' ∉ s →
      scanDocAux fuel s pending acc =
        acc ++ (if (pending ++ s).isEmpty then [] else [DocSeg.text (pending ++ s)]) := by
  induction fuel with
  | zero => intro s pending acc h _; exact absurd h (by omega)
  | succ fuel ih =>
    intro s pending acc h hm
    cases s with
    | nil => simp [scanDocAux]
    | cons ch rest =>
      cases hmt : matchFldAt (ch :: rest) with
      | some trip =>
        obtain ⟨a, c, r⟩ := trip
        exact absurd (matchFldAt_has_marker _ _ _ _ hmt) hm
      | none =>
        simp only [scanDocAux, hmt]
        have hlen : rest.length < fuel := by
          simp only [List.length_cons] at h; omega
        have hrest : '«' ∉ rest := fun hx => hm (List.mem_cons_of_mem ch hx)
        rw [ih rest (pending ++ [ch]) acc hlen hrest]
        simp

theorem scanDoc_no_marker (s : Str) (h : '«' ∉ s) :
    scanDoc s = if s.isEmpty then [] else [DocSeg.text s] := by
  unfold scanDoc
  rw [scanDocAux_no_marker (s.length + 1) s [] [] (by omega) h]
  simp

theorem replaceFieldsAux_all_text (data : MergeData) (segs : List DocSeg)
    (h : noFldB segs = true) :
    ∀ p sk, replaceFieldsAux data segs p sk = (joinSegs segs, p, sk) := by
  induction segs with
  | nil => intro p sk; simp [replaceFieldsAux, joinSegs]
  | cons s t ih =>
    intro p sk
    cases s with
    | text txt =>
      have ht : noFldB t = true := by
        simp only [noFldB, List.all_cons, Bool.and_eq_true] at h
        exact h.2
      simp [replaceFieldsAux, joinSegs, ih ht]
    | fld attrs cap => simp [noFldB] at h

theorem replaceFields_no_marker (s : Str) (data : MergeData) (h : '«' ∉ s) :
    replaceFields s data = (s, []) := by
  unfold replaceFields
  rw [scanDoc_no_marker s h]
  by_cases he : s.isEmpty
  · simp [he, replaceFieldsAux, joinSegs, List.isEmpty_iff.mp he]
  · simp [he, replaceFieldsAux_all_text data [DocSeg.text s] (by simp [noFldB]),
      joinSegs]

/-- Claim C6: `PerformMerge` fails exactly when the archive lacks
`word/document.xml` or the final rebuild of the updated member mapping
fails (`replaceFieldValues` itself always succeeds — the scan treats the
markup as opaque text); markup in which no placeholder pattern is found
is passed through unchanged with zero skipped fields. -/
theorem performMerge_failure_characterization (doc : DocxFile) (data : MergeData) :
    (mapGet doc.Files (str "word/document.xml") = none →
      isErrB (PerformMerge doc data) = true) ∧
    (∀ xml, mapGet doc.Files (str "word/document.xml") = some xml →
      isErrB (PerformMerge doc data) =
        isErrB (rebuildDocxArchive
          ⟨mapSet doc.Files (str "word/document.xml")
            ((replaceFieldValues xml data).1)⟩)) ∧
    (∀ xml, mapGet doc.Files (str "word/document.xml") = some xml →
      noFldB (scanDoc xml) = true →
      replaceFieldValues xml data = (xml, []) ∧
      ∀ z skipped, PerformMerge doc data = Except.ok (z, skipped) →
        skipped = []) := by
  have hpass : ∀ xml, noFldB (scanDoc xml) = true →
      replaceFieldValues xml data = (xml, []) := by
    intro xml hno
    unfold replaceFieldValues replaceFields
    rw [replaceFieldsAux_all_text data (scanDoc xml) hno [] []]
    simp [scanDoc_join]
  refine ⟨?_, ?_, ?_⟩
  · intro hnone
    unfold PerformMerge GetDocumentXML
    rw [hnone]
    rfl
  · intro xml hsome
    unfold PerformMerge GetDocumentXML
    rw [hsome]
    dsimp only
    cases hr : rebuildDocxArchive
        ⟨mapSet doc.Files (str "word/document.xml")
          ((replaceFieldValues xml data).1)⟩ with
    | error e => simp [hr, isErrB]
    | ok z => simp [hr, isErrB]
  · intro xml hsome hno
    refine ⟨hpass xml hno, ?_⟩
    intro z skipped hok
    unfold PerformMerge GetDocumentXML at hok
    rw [hsome] at hok
    dsimp only at hok
    rw [hpass xml hno] at hok
    cases hr : rebuildDocxArchive
        ⟨mapSet doc.Files (str "word/document.xml") xml⟩ with
    | error e => rw [hr] at hok; exact absurd hok (by simp)
    | ok z' =>
      rw [hr] at hok
      rw [Except.ok.injEq, Prod.mk.injEq] at hok
      exact hok.2.symm

/-- Claim C6 (witness): a document whose markup has no placeholder is
passed through with zero skipped fields, and the operation's outcome is
exactly the rebuild's outcome. -/
theorem performMerge_failure_characterization_witness :
    replaceFieldValues (str "hello") [] = (str "hello", []) ∧
    isErrB (PerformMerge ⟨[(str "word/document.xml", str "hello")]⟩ []) =
      isErrB (rebuildDocxArchive
        ⟨mapSet [(str "word/document.xml", str "hello")]
          (str "word/document.xml")
          ((replaceFieldValues (str "hello") []).1)⟩) :=
  ⟨((performMerge_failure_characterization
      ⟨[(str "word/document.xml", str "hello")]⟩ []).2.2
      (str "hello") (by decide) (by decide)).1,
   (performMerge_failure_characterization
      ⟨[(str "word/document.xml", str "hello")]⟩ []).2.1
      (str "hello") (by decide)⟩

/-! ### First-occurrence machinery -/

theorem firstOccurIdx_spec (s pat : Str) :
    ∀ n : Nat, firstOccurIdx s pat = some n →
      pat.isPrefixOf (s.drop n) = true ∧
      ∀ i < n, ¬ pat.isPrefixOf (s.drop i) = true := by
  induction s with
  | nil =>
    intro n h
    unfold firstOccurIdx at h
    split at h
    case isTrue hp =>
      rw [Option.some_inj] at h
      subst h
      refine ⟨?_, by omega⟩
      simp_all [List.isEmpty_iff]
    case isFalse => exact absurd h (by simp)
  | cons x rest ih =>
    intro n h
    unfold firstOccurIdx at h
    by_cases hp : pat.isPrefixOf (x :: rest) = true
    · rw [if_pos hp, Option.some_inj] at h
      subst h
      exact ⟨hp, by omega⟩
    · rw [if_neg hp] at h
      obtain ⟨m, hm, hn⟩ := Option.map_eq_some'.mp h
      subst hn
      obtain ⟨h1, h2⟩ := ih m hm
      refine ⟨h1, ?_⟩
      intro i hi
      cases i with
      | zero => simpa using hp
      | succ j => exact h2 j (by omega)

theorem replaceFirst_at (pat : Str) (hpat : pat ≠ []) :
    ∀ (n : Nat) (s r : Str),
      pat.isPrefixOf (s.drop n) = true →
      (∀ i < n, ¬ pat.isPrefixOf (s.drop i) = true) →
      replaceFirst s pat r = s.take n ++ r ++ s.drop (n + pat.length) := by
  intro n
  induction n with
  | zero =>
    intro s r hpre _
    cases s with
    | nil =>
      simp only [List.drop_nil] at hpre
      cases pat with
      | nil => exact absurd rfl hpat
      | cons p ps => simp [List.isPrefixOf] at hpre
    | cons x rest =>
      simp only [List.drop] at hpre
      simp [replaceFirst, hpre]
  | succ n ih =>
    intro s r hpre hmin
    cases s with
    | nil =>
      simp only [List.drop_nil] at hpre
      cases pat with
      | nil => exact absurd rfl hpat
      | cons p ps => simp [List.isPrefixOf] at hpre
    | cons x rest =>
      have h0 : ¬ pat.isPrefixOf (x :: rest) = true := by
        have := hmin 0 (by omega)
        simpa using this
      simp only [replaceFirst, h0, if_neg, Bool.not_eq_true, if_false]
      rw [ih rest r (by simpa using hpre)
        (fun i hi => by simpa using hmin (i + 1) (by omega))]
      simp only [List.take_succ_cons, List.drop_succ_cons]
      simp [Nat.succ_add]

set_option maxRecDepth 8192 in
/-- Claim C5 (counterexample): the current `PerformMerge` does not
substitute complex-encoding (begin/instrText/separate/end) placeholders.
On an archive whose markup is exactly one complex field construct for
`name`, with data supplying `name`, the document is returned unchanged
and nothing is recorded as skipped. -/
theorem performMerge_complex_encoding_not_substituted :
    PerformMerge
      ⟨[(str "word/document.xml",
         str "<w:fldChar w:fldCharType=\"begin\"/><w:instrText>MERGEFIELD name</w:instrText><w:fldChar w:fldCharType=\"separate\"/><w:r><w:t>old</w:t></w:r><w:fldChar w:fldCharType=\"end\"/>")]⟩
      [(str "name", JValue.jstr (str "x"))] =
    Except.ok
      (⟨[(str "word/document.xml",
          str "<w:fldChar w:fldCharType=\"begin\"/><w:instrText>MERGEFIELD name</w:instrText><w:fldChar w:fldCharType=\"separate\"/><w:r><w:t>old</w:t></w:r><w:fldChar w:fldCharType=\"end\"/>")]⟩,
       []) ∧
    getCaseInsensitiveValue [(str "name", JValue.jstr (str "x"))] (str "name") =
      some (str "x") :=
  ⟨rfl, rfl⟩

/-- Claim C5 (amended): the current merge engine substitutes only the
simple `«name»` text-run encoding — markup without the `«` marker (in
particular any complex begin/instrText/separate/end construct) is passed
through untouched; the complex-encoding substitution exists only in the
earlier `replaceComplexFields` revision, whose found-value branch
replaces the span from the first `separate` marker through the first
following `end` marker with a run reusing the `<w:rPr>` formatting found
in that span when present, else an unformatted run. -/
theorem merge_encodings_amended :
    (∀ (s : Str) (data : MergeData), '«' ∉ s → replaceFields s data = (s, [])) ∧
    (∀ (a b value : Str),
      firstOccurIdx (a ++ sepTagLit ++ b ++ endTagLit) sepTagLit = some a.length →
      firstOccurIdx (b ++ endTagLit) endTagLit = some b.length →
      processComplexMatch (a ++ sepTagLit ++ b ++ endTagLit) value =
        a ++ (match findFormatting (sepTagLit ++ (b ++ endTagLit)) with
              | some f => str "<w:r>" ++ f ++ str "<w:t>" ++ escapeXML value ++
                  str "</w:t></w:r>"
              | none => str "<w:r><w:t>" ++ escapeXML value ++
                  str "</w:t></w:r>")) := by
  constructor
  · exact fun s data h => replaceFields_no_marker s data h
  · intro a b value hA hB
    have hm : a ++ sepTagLit ++ b ++ endTagLit =
        a ++ (sepTagLit ++ (b ++ endTagLit)) := by
      simp [List.append_assoc]
    have hdropA : (a ++ sepTagLit ++ b ++ endTagLit).drop a.length =
        sepTagLit ++ (b ++ endTagLit) := by
      rw [hm, List.drop_left]
    have hdropS : (sepTagLit ++ (b ++ endTagLit)).drop sepTagLit.length =
        b ++ endTagLit := List.drop_left _ _
    have hsep : findSeparateMatch (a ++ sepTagLit ++ b ++ endTagLit) =
        some (sepTagLit ++ (b ++ endTagLit)) := by
      unfold findSeparateMatch
      rw [hA]
      dsimp only
      rw [hdropA, hdropS, hB]
      dsimp only
      have hlen : sepTagLit.length + b.length + endTagLit.length =
          (sepTagLit ++ (b ++ endTagLit)).length := by
        simp
        omega
      rw [hlen, List.take_length]
    unfold processComplexMatch
    rw [hsep]
    dsimp only
    have hspec := firstOccurIdx_spec (a ++ sepTagLit ++ b ++ endTagLit)
      sepTagLit a.length hA
    have hne : sepTagLit ++ (b ++ endTagLit) ≠ [] := by
      simp [sepTagLit, str]
    have hpre : (sepTagLit ++ (b ++ endTagLit)).isPrefixOf
        ((a ++ sepTagLit ++ b ++ endTagLit).drop a.length) = true := by
      rw [hdropA]
      exact List.isPrefixOf_iff_prefix.mpr List.prefix_rfl
    have hmin : ∀ i < a.length,
        ¬ (sepTagLit ++ (b ++ endTagLit)).isPrefixOf
            ((a ++ sepTagLit ++ b ++ endTagLit).drop i) = true := by
      intro i hi hcon
      have hsp : sepTagLit <+: (sepTagLit ++ (b ++ endTagLit)) :=
        List.prefix_append _ _
      have hcp : (sepTagLit ++ (b ++ endTagLit)) <+:
          ((a ++ sepTagLit ++ b ++ endTagLit).drop i) :=
        List.isPrefixOf_iff_prefix.mp hcon
      exact (hspec.2 i hi) (List.isPrefixOf_iff_prefix.mpr (hsp.trans hcp))
    rw [replaceFirst_at (sepTagLit ++ (b ++ endTagLit)) hne a.length _ _ hpre hmin]
    have htake : (a ++ sepTagLit ++ b ++ endTagLit).take a.length = a := by
      rw [hm, List.take_left]
    have hdropEnd : (a ++ sepTagLit ++ b ++ endTagLit).drop
        (a.length + (sepTagLit ++ (b ++ endTagLit)).length) = [] := by
      apply List.drop_eq_nil_of_le
      simp
    rw [htake, hdropEnd]
    cases findFormatting (sepTagLit ++ (b ++ endTagLit)) <;> simp

set_option maxRecDepth 8192 in
/-- Claim C5 (witness): both amended parts at concrete inputs. -/
theorem merge_encodings_amended_witness :
    replaceFields (str "hello") [] = (str "hello", []) ∧
    processComplexMatch
        (str "X" ++ sepTagLit ++ str "<w:rPr>x</w:rPr>" ++ endTagLit) (str "v") =
      str "X" ++
        (match findFormatting (sepTagLit ++ (str "<w:rPr>x</w:rPr>" ++ endTagLit)) with
         | some f => str "<w:r>" ++ f ++ str "<w:t>" ++ escapeXML (str "v") ++
             str "</w:t></w:r>"
         | none => str "<w:r><w:t>" ++ escapeXML (str "v") ++
             str "</w:t></w:r>") :=
  ⟨merge_encodings_amended.1 (str "hello") [] (by decide),
   merge_encodings_amended.2 (str "X") (str "<w:rPr>x</w:rPr>") (str "v")
     (by decide) (by decide)⟩

/-! ### Substitution lemmas -/

theorem containsStr_iff (l : List Str) (x : Str) :
    containsStr l x = true ↔ x ∈ l := by
  induction l with
  | nil => simp [containsStr]
  | cons s t ih =>
    by_cases h : s = x
    · subst h
      simp [containsStr]
    · have h' : ¬x = s := fun he => h he.symm
      simp [containsStr, h, ih, List.mem_cons, h']

theorem dropWhile_all (p : Char → Bool) (a b : Str) (h : ∀ c ∈ a, p c = true) :
    (a ++ b).dropWhile p = b.dropWhile p := by
  induction a with
  | nil => simp
  | cons c t ih =>
    simp only [List.cons_append, List.dropWhile_cons,
      h c (List.mem_cons_self c t), if_true]
    exact ih (fun x hx => h x (List.mem_cons_of_mem c hx))

theorem takeWhile_all (p : Char → Bool) (a b : Str) (h : ∀ c ∈ a, p c = true) :
    (a ++ b).takeWhile p = a ++ b.takeWhile p := by
  induction a with
  | nil => simp
  | cons c t ih =>
    simp only [List.cons_append, List.takeWhile_cons,
      h c (List.mem_cons_self c t), if_true]
    rw [ih (fun x hx => h x (List.mem_cons_of_mem c hx))]

theorem fldMatchText_decomp (attrs cap : Str) :
    fldMatchText attrs cap =
      (str "<w:t" ++ attrs ++ str ">") ++ (str "«" ++ cap ++ str "»") ++
        str "</w:t>" := by
  simp [fldMatchText, str]

theorem extractFieldName_eval (attrs cap : Str) (hattrs : '«' ∉ attrs)
    (hcap : cap ≠ []) (hcapm : '»' ∉ cap) :
    extractFieldName (fldMatchText attrs cap) = some cap := by
  have hdec : fldMatchText attrs cap =
      (str "<w:t" ++ attrs ++ str ">") ++
        ('«' :: (cap ++ '»' :: str "</w:t>")) := by
    simp [fldMatchText, str]
  unfold extractFieldName
  rw [hdec]
  have hall : ∀ c ∈ str "<w:t" ++ attrs ++ str ">",
      (decide (c ≠ '«')) = true := by
    intro c hc
    simp only [List.mem_append] at hc
    rcases hc with hc | hc
    · rcases hc with hc | hc
      · fin_cases hc <;> decide
      · simp only [decide_eq_true_iff]
        intro he
        exact hattrs (he ▸ hc)
    · fin_cases hc <;> decide
  rw [show ((str "<w:t" ++ attrs ++ str ">") ++
      ('«' :: (cap ++ '»' :: str "</w:t>"))).dropWhile (fun c => decide (c ≠ '«')) =
      ('«' :: (cap ++ '»' :: str "</w:t>")).dropWhile (fun c => decide (c ≠ '«'))
    from dropWhile_all _ _ _ hall]
  rw [List.dropWhile_cons, if_neg (by decide)]
  dsimp only
  rw [if_pos rfl]
  have hcapall : ∀ c ∈ cap, (decide (c ≠ '»')) = true := by
    intro c hc
    simp only [decide_eq_true_iff]
    intro he
    exact hcapm (he ▸ hc)
  rw [show (cap ++ '»' :: str "</w:t>").takeWhile (fun c => decide (c ≠ '»')) =
      cap ++ ('»' :: str "</w:t>").takeWhile (fun c => decide (c ≠ '»'))
    from takeWhile_all _ _ _ hcapall]
  rw [List.takeWhile_cons]
  simp only [show (decide ('»' ≠ '»')) = false from by decide, Bool.false_eq_true,
    if_false, List.append_nil]
  have hemp : cap.isEmpty = false := by
    cases cap
    · exact absurd rfl hcap
    · rfl
  rw [hemp]
  simp only [Bool.false_eq_true, if_false]
  rw [List.drop_left]
  simp

theorem not_prefix_of_no_marker (pre tail pat' : Str) (hpre : '«' ∉ pre) :
    ∀ i < pre.length, ¬ ('«' :: pat').isPrefixOf ((pre ++ tail).drop i) = true := by
  intro i hi hcon
  rw [List.drop_append_of_le_length (le_of_lt hi)] at hcon
  cases hd : pre.drop i with
  | nil =>
    rw [hd] at hcon
    have : pre.length ≤ i := by
      by_contra hlt
      push_neg at hlt
      have := List.drop_eq_nil_iff_le.mp hd
      omega
    omega
  | cons c t' =>
    rw [hd] at hcon
    simp only [List.cons_append, List.isPrefixOf, Bool.and_eq_true, beq_iff_eq]
      at hcon
    have hcmem : c ∈ pre := by
      have hmem : c ∈ pre.drop i := by
        rw [hd]; exact List.mem_cons_self _ _
      exact List.mem_of_mem_drop hmem
    exact hpre (hcon.1 ▸ hcmem)

theorem replaceFirst_marker (attrs cap repl : Str) (hattrs : '«' ∉ attrs) :
    replaceFirst (fldMatchText attrs cap) (str "«" ++ cap ++ str "»") repl =
      str "<w:t" ++ attrs ++ str ">" ++ repl ++ str "</w:t>" := by
  have hpre : '«' ∉ str "<w:t" ++ attrs ++ str ">" := by
    simp only [List.mem_append]
    rintro ((hc | hc) | hc)
    · exact absurd hc (by decide)
    · exact hattrs hc
    · exact absurd hc (by decide)
  have hpat : str "«" ++ cap ++ str "»" = '«' :: (cap ++ str "»") := by
    simp [str]
  have hm := fldMatchText_decomp attrs cap
  have hfull : fldMatchText attrs cap =
      (str "<w:t" ++ attrs ++ str ">") ++
        ((str "«" ++ cap ++ str "»") ++ str "</w:t>") := by
    rw [hm, List.append_assoc]
  rw [hfull, hpat]
  set pre := str "<w:t" ++ attrs ++ str ">" with hpredef
  rw [replaceFirst_at ('«' :: (cap ++ str "»")) (by simp) pre.length
    (pre ++ (('«' :: (cap ++ str "»")) ++ str "</w:t>")) repl
    (by rw [List.drop_left]
        exact List.isPrefixOf_iff_prefix.mpr (List.prefix_append _ _))
    (not_prefix_of_no_marker pre _ _ hpre)]
  rw [List.take_left]
  have hdrop : (pre ++ (('«' :: (cap ++ str "»")) ++ str "</w:t>")).drop
      (pre.length + ('«' :: (cap ++ str "»")).length) = str "</w:t>" := by
    rw [← List.append_assoc, ← List.length_append, List.drop_left]
  rw [hdrop, List.append_assoc, List.append_assoc]

theorem segsWF_fld (attrs cap : Str) (rest : List DocSeg)
    (h : segsWF (DocSeg.fld attrs cap :: rest) = true) :
    cap ≠ [] ∧ '»' ∉ cap ∧ '«' ∉ attrs ∧ trimSpace cap = cap ∧
      segsWF rest = true := by
  simp only [segsWF, List.all_cons, Bool.and_eq_true] at h
  obtain ⟨⟨⟨⟨⟨h1, h2⟩, h3⟩, h4⟩, h5⟩, h6⟩ := h
  refine ⟨?_, ?_, ?_, ?_, h6⟩
  · intro he
    subst he
    simp at h1
  · intro hm
    rw [Bool.not_eq_true', ← Bool.not_eq_true] at h2
    exact h2 (List.elem_iff.mpr hm)
  · intro hm
    rw [Bool.not_eq_true', ← Bool.not_eq_true] at h4
    exact h4 (List.elem_iff.mpr hm)
  · exact beq_iff_eq.mp h5

theorem replaceFieldsAux_spec (data : MergeData) :
    ∀ (segs : List DocSeg), segsWF segs = true →
    ∀ (seen skipped : List Str),
      (∀ n, n ∈ skipped → n ∈ seen) →
      (replaceFieldsAux data segs seen skipped).1 = substSpec data segs seen ∧
      (replaceFieldsAux data segs seen skipped).2.2 =
        skipped ++ skippedSpec data segs seen := by
  intro segs
  induction segs with
  | nil =>
    intro _ seen skipped _
    simp [replaceFieldsAux, substSpec, skippedSpec]
  | cons sg rest ih =>
    intro h seen skipped hsub
    cases sg with
    | text t =>
      have hrest : segsWF rest = true := by
        simp only [segsWF, List.all_cons, Bool.and_eq_true] at h
        exact h.2
      obtain ⟨h1, h2⟩ := ih hrest seen skipped hsub
      rcases hrec : replaceFieldsAux data rest seen skipped with ⟨o, p, sk⟩
      rw [hrec] at h1 h2
      simp only [replaceFieldsAux, hrec, substSpec, skippedSpec]
      exact ⟨by rw [← h1], by rw [← h2]⟩
    | fld attrs cap =>
      obtain ⟨hcapne, hcapm, hattrs, htrim, hrest⟩ := segsWF_fld attrs cap rest h
      have hext : extractFieldName (fldMatchText attrs cap) = some cap :=
        extractFieldName_eval attrs cap hattrs hcapne hcapm
      by_cases hseen : containsStr seen cap = true
      · have hpf : processFld data seen skipped attrs cap =
            (fldMatchText attrs cap, seen, skipped) := by
          unfold processFld
          dsimp only
          rw [hext]
          dsimp only
          rw [htrim, if_pos hseen]
        obtain ⟨h1, h2⟩ := ih hrest seen skipped hsub
        rcases hrec : replaceFieldsAux data rest seen skipped with ⟨o, p, sk⟩
        rw [hrec] at h1 h2
        simp only [replaceFieldsAux, hpf, hrec, substSpec, skippedSpec, htrim,
          hseen, if_true]
        exact ⟨by rw [← h1], by rw [← h2]⟩
      · have hseen' : containsStr seen cap = false := by
          rw [Bool.not_eq_true] at hseen
          exact hseen
        cases hval : getCaseInsensitiveValue data cap with
        | some value =>
          have hpf : processFld data seen skipped attrs cap =
              (str "<w:t" ++ attrs ++ str ">" ++ escapeXML value ++ str "</w:t>",
               seen ++ [cap], skipped) := by
            unfold processFld
            dsimp only
            rw [hext]
            dsimp only
            rw [htrim, if_neg (by rw [hseen']; simp), hval]
            dsimp only
            rw [replaceFirst_marker attrs cap (escapeXML value) hattrs]
          have hsub' : ∀ n, n ∈ skipped → n ∈ seen ++ [cap] := by
            intro n hn
            exact List.mem_append_left _ (hsub n hn)
          obtain ⟨h1, h2⟩ := ih hrest (seen ++ [cap]) skipped hsub'
          rcases hrec : replaceFieldsAux data rest (seen ++ [cap]) skipped
            with ⟨o, p, sk⟩
          rw [hrec] at h1 h2
          simp only [replaceFieldsAux, hpf, hrec, substSpec, skippedSpec, htrim,
            hseen', Bool.false_eq_true, if_false, hval]
          exact ⟨by rw [← h1], by rw [← h2]⟩
        | none =>
          have hnotsk : containsStr skipped cap = false := by
            rw [← Bool.not_eq_true]
            intro hc
            have hmem := hsub cap ((containsStr_iff _ _).mp hc)
            have hcs : containsStr seen cap = true := (containsStr_iff _ _).mpr hmem
            rw [hseen'] at hcs
            exact absurd hcs (by simp)
          have hpf : processFld data seen skipped attrs cap =
              (fldMatchText attrs cap, seen ++ [cap], skipped ++ [cap]) := by
            unfold processFld
            dsimp only
            rw [hext]
            dsimp only
            rw [htrim, if_neg (by rw [hseen']; simp), hval]
            dsimp only
            rw [if_neg (by rw [hnotsk]; simp)]
          have hsub' : ∀ n, n ∈ skipped ++ [cap] → n ∈ seen ++ [cap] := by
            intro n hn
            rcases List.mem_append.mp hn with hn | hn
            · exact List.mem_append_left _ (hsub n hn)
            · exact List.mem_append_right _ hn
          obtain ⟨h1, h2⟩ := ih hrest (seen ++ [cap]) (skipped ++ [cap]) hsub'
          rcases hrec : replaceFieldsAux data rest (seen ++ [cap]) (skipped ++ [cap])
            with ⟨o, p, sk⟩
          rw [hrec] at h1 h2
          simp only [replaceFieldsAux, hpf, hrec, substSpec, skippedSpec, htrim,
            hseen', Bool.false_eq_true, if_false, hval]
          refine ⟨by rw [← h1], ?_⟩
          dsimp only at h2
          rw [h2]
          simp

set_option maxRecDepth 8192 in
/-- Claim C4 (counterexample): the claim says the first occurrence of a
field name is substituted whenever the data contains a case-insensitive
match.  For the padded placeholder `« name »` with data for `name`, the
lookup succeeds (second conjunct) yet the occurrence is left unmodified
and nothing is recorded as skipped (first conjunct): the callback
substitutes by replacing the literal `«` + trimmedName + `»`, which does
not occur in the match when trimming changed the captured text — while
the name is still marked processed. -/
theorem replaceFields_padded_placeholder_not_substituted :
    replaceFields (str "A<w:t>« name »</w:t>B")
        [(str "name", JValue.jstr (str "Jane"))] =
      (str "A<w:t>« name »</w:t>B", []) ∧
    getCaseInsensitiveValue [(str "name", JValue.jstr (str "Jane"))]
        (trimSpace (str " name ")) = some (str "Jane") :=
  ⟨rfl, rfl⟩

/-- Claim C4 (amended): provided every placeholder's captured text is
already trimmed (no surrounding white space) and attribute text carries
no `«`, each distinct field name is processed only at its first
placeholder occurrence in scan order — substituted there when the data
contains a case-insensitive match, otherwise left unmodified with the
name recorded in the skipped list exactly once, in order of first
encounter — and every later occurrence of an already-processed name is
reproduced exactly as found (`substSpec`/`skippedSpec` state precisely
this per-occurrence behaviour). -/
theorem replaceFields_first_occurrence_semantics (s : Str) (data : MergeData)
    (h : segsWF (scanDoc s) = true) :
    replaceFields s data =
      (substSpec data (scanDoc s) [], skippedSpec data (scanDoc s) []) := by
  obtain ⟨h1, h2⟩ := replaceFieldsAux_spec data (scanDoc s) h [] [] (by simp)
  unfold replaceFields
  rcases hrec : replaceFieldsAux data (scanDoc s) [] [] with ⟨o, p, sk⟩
  rw [hrec] at h1 h2
  dsimp only at h1 h2
  rw [h1, h2]
  simp

set_option maxRecDepth 8192 in
/-- Claim C4 (witness): a document with two occurrences of `name` and
one of `email`, with data only for `name`. -/
theorem replaceFields_first_occurrence_semantics_witness :
    segsWF (scanDoc
      (str "A<w:t>«name»</w:t>B<w:t>«name»</w:t>C<w:t>«email»</w:t>")) = true ∧
    replaceFields
        (str "A<w:t>«name»</w:t>B<w:t>«name»</w:t>C<w:t>«email»</w:t>")
        [(str "name", JValue.jstr (str "Jane"))] =
      (substSpec [(str "name", JValue.jstr (str "Jane"))]
         (scanDoc (str "A<w:t>«name»</w:t>B<w:t>«name»</w:t>C<w:t>«email»</w:t>"))
         [],
       skippedSpec [(str "name", JValue.jstr (str "Jane"))]
         (scanDoc (str "A<w:t>«name»</w:t>B<w:t>«name»</w:t>C<w:t>«email»</w:t>"))
         []) :=
  ⟨by decide, replaceFields_first_occurrence_semantics _ _ (by decide)⟩

/-! ### Validator lemmas -/

theorem requiredFold_spec (data : MergeData) :
    ∀ (fields : List MergeField) (r : ValidationResult),
      (fields.foldl (requiredStep data) r).Errors =
          r.Errors ++ (fields.filter (fun f => !requiredFound data f.Name)).map
            (fun f => str "Required field '" ++ f.Name ++ str "' is missing") ∧
      (fields.foldl (requiredStep data) r).MissingFields =
          r.MissingFields ++
            (fields.filter (fun f => !requiredFound data f.Name)).map
              MergeField.Name ∧
      (fields.foldl (requiredStep data) r).Warnings = r.Warnings ∧
      (fields.foldl (requiredStep data) r).Valid =
          (r.Valid &&
            (fields.filter (fun f => !requiredFound data f.Name)).isEmpty) := by
  intro fields
  induction fields with
  | nil => intro r; simp
  | cons f t ih =>
    intro r
    by_cases hf : requiredFound data f.Name = true
    · simp only [List.foldl_cons, requiredStep, hf, if_true, List.filter_cons,
        Bool.not_eq_true', hf, Bool.not_true]
      simpa using ih r
    · have hf' : requiredFound data f.Name = false := by
        rw [Bool.not_eq_true] at hf
        exact hf
      simp only [List.foldl_cons, requiredStep, hf', Bool.false_eq_true, if_false,
        List.filter_cons, Bool.not_eq_true', Bool.not_false]
      obtain ⟨h1, h2, h3, h4⟩ := ih
        { r with
          Valid := false
          MissingFields := r.MissingFields ++ [f.Name]
          Errors := r.Errors ++
            [str "Required field '" ++ f.Name ++ str "' is missing"] }
      refine ⟨?_, ?_, ?_, ?_⟩
      · rw [h1]; simp [hf']
      · rw [h2]; simp [hf']
      · rw [h3]
      · rw [h4]; simp [hf']

theorem dataFold_spec (mfs : MergeFieldSet) :
    ∀ (entries : List (Str × JValue)) (r : ValidationResult),
      (entries.foldl (dataStep mfs) r).Errors.length =
          r.Errors.length + (entries.filter (fun kv =>
            match GetFieldByName mfs kv.1 with
            | some field => (validateFieldValue field kv.2).isSome
            | none => false)).length ∧
      (entries.foldl (dataStep mfs) r).MissingFields = r.MissingFields ∧
      (entries.foldl (dataStep mfs) r).Warnings = r.Warnings ∧
      (entries.foldl (dataStep mfs) r).Valid =
          (r.Valid && (entries.filter (fun kv =>
            match GetFieldByName mfs kv.1 with
            | some field => (validateFieldValue field kv.2).isSome
            | none => false)).isEmpty) := by
  intro entries
  induction entries with
  | nil => intro r; simp
  | cons kv t ih =>
    intro r
    cases hfield : GetFieldByName mfs kv.1 with
    | none =>
      simp only [List.foldl_cons, dataStep, hfield, List.filter_cons]
      simpa [hfield] using ih r
    | some field =>
      cases hval : validateFieldValue field kv.2 with
      | none =>
        simp only [List.foldl_cons, dataStep, hfield, hval, List.filter_cons]
        simpa [hfield, hval] using ih r
      | some e =>
        simp only [List.foldl_cons, dataStep, hfield, hval, List.filter_cons]
        obtain ⟨h1, h2, h3, h4⟩ := ih
          { r with
            Valid := false
            Errors := r.Errors ++
              [str "Invalid value for field '" ++ kv.1 ++ str "': " ++ e] }
        refine ⟨?_, ?_, ?_, ?_⟩
        · rw [h1]; simp [hfield, hval]; omega
        · rw [h2]
        · rw [h3]
        · rw [h4]; simp [hfield, hval]

/-- Claim C7: every `ValidationResult` returned by `Validate` has
`Valid = false` iff `Errors` is non-empty; validation continues past
each violation, collecting one error per missing required field and one
per field-type violation (full-error-list semantics), with
`MissingFields` listing every missing required field in order. -/
theorem validate_valid_iff_errors (mfs : MergeFieldSet) (data : MergeData) :
    ((Validate mfs data).Valid = false ↔ (Validate mfs data).Errors ≠ []) ∧
    (Validate mfs data).Errors.length =
      missingCount mfs data + violationCount mfs data ∧
    (Validate mfs data).Warnings = [] ∧
    (Validate mfs data).MissingFields =
      ((GetRequiredFields mfs).filter (fun f => !requiredFound data f.Name)).map
        MergeField.Name := by
  obtain ⟨e1, m1, w1, v1⟩ :=
    requiredFold_spec data (GetRequiredFields mfs) ⟨true, [], [], []⟩
  obtain ⟨e2, m2, w2, v2⟩ := dataFold_spec mfs data
    ((GetRequiredFields mfs).foldl (requiredStep data) ⟨true, [], [], []⟩)
  have hval : Validate mfs data =
      data.foldl (dataStep mfs)
        ((GetRequiredFields mfs).foldl (requiredStep data) ⟨true, [], [], []⟩) :=
    rfl
  rw [hval]
  dsimp only at e1 m1 w1 v1
  rw [e1] at e2
  rw [m1] at m2
  rw [w1] at w2
  rw [v1] at v2
  simp only [List.nil_append, Bool.true_and] at e2 m2 w2 v2
  have hmc : missingCount mfs data =
      ((GetRequiredFields mfs).filter (fun f => !requiredFound data f.Name)).length :=
    rfl
  have hvc : violationCount mfs data =
      (data.filter (fun kv =>
        match GetFieldByName mfs kv.1 with
        | some field => (validateFieldValue field kv.2).isSome
        | none => false)).length := rfl
  refine ⟨?_, ?_, w2, m2⟩
  · rw [v2]
    constructor
    · intro hv hemp
      have hlen0 : (data.foldl (dataStep mfs)
          ((GetRequiredFields mfs).foldl (requiredStep data)
            ⟨true, [], [], []⟩)).Errors.length = 0 := by
        rw [hemp]; rfl
      rw [e2] at hlen0
      simp only [List.length_map] at hlen0
      have hm0 : ((GetRequiredFields mfs).filter
          (fun f => !requiredFound data f.Name)).length = 0 := by omega
      have hv0 : (data.filter (fun kv =>
          match GetFieldByName mfs kv.1 with
          | some field => (validateFieldValue field kv.2).isSome
          | none => false)).length = 0 := by omega
      rw [List.length_eq_zero] at hm0 hv0
      rw [hm0, hv0] at hv
      simp at hv
    · intro hne
      by_contra hv
      rw [Bool.not_eq_false, Bool.and_eq_true, List.isEmpty_iff,
        List.isEmpty_iff] at hv
      apply hne
      have : (data.foldl (dataStep mfs)
          ((GetRequiredFields mfs).foldl (requiredStep data)
            ⟨true, [], [], []⟩)).Errors.length = 0 := by
        rw [e2, hv.1, hv.2]
        simp
      rw [List.length_eq_zero] at this
      exact this
  · rw [e2, hmc, hvc]
    simp

theorem getFieldByName_none_iff (mfs : MergeFieldSet) (k : Str) :
    GetFieldByName mfs k = none ↔
      ∀ f ∈ mfs.Fields, normName f.Name ≠ normName k := by
  rw [getFieldByName_eq_find_reverse, List.find?_eq_none]
  constructor
  · intro h f hf hn
    have := h f (List.mem_reverse.mpr hf)
    simp [hn] at this
  · intro h f hf
    have := h f (List.mem_reverse.mp hf)
    simp [this]

theorem foldl_requiredStep_congr (d1 d2 : MergeData) :
    ∀ (fields : List MergeField) (r : ValidationResult),
      (∀ f ∈ fields, requiredFound d1 f.Name = requiredFound d2 f.Name) →
      fields.foldl (requiredStep d1) r = fields.foldl (requiredStep d2) r := by
  intro fields
  induction fields with
  | nil => intro r _; rfl
  | cons f t ih =>
    intro r hagree
    simp only [List.foldl_cons]
    rw [show requiredStep d1 r f = requiredStep d2 r f from by
      unfold requiredStep
      rw [hagree f (List.mem_cons_self f t)]]
    exact ih _ (fun g hg => hagree g (List.mem_cons_of_mem f hg))

/-- Claim C8: a data key that case-insensitively matches no field in the
set is ignored completely — validating data extended with such a key
yields exactly the same `ValidationResult` as validating the data
without it (no error, no warning, no change to `Valid`). -/
theorem validate_ignores_unknown_keys (mfs : MergeFieldSet) (data : MergeData)
    (k : Str) (v : JValue) (h : GetFieldByName mfs k = none) :
    Validate mfs (data ++ [(k, v)]) = Validate mfs data := by
  have hnone := (getFieldByName_none_iff mfs k).mp h
  unfold Validate
  have hagree : ∀ f ∈ GetRequiredFields mfs,
      requiredFound (data ++ [(k, v)]) f.Name = requiredFound data f.Name := by
    intro f hf
    have hfmem : f ∈ mfs.Fields := List.mem_of_mem_filter hf
    unfold requiredFound
    rw [List.any_append]
    simp only [List.any_cons, List.any_nil, Bool.or_false]
    have hne : (normName k == normName f.Name) = false := by
      have := hnone f hfmem
      simp only [beq_eq_false_iff_ne, ne_eq]
      intro hc
      exact this hc.symm
    rw [hne]
    simp
  rw [foldl_requiredStep_congr (data ++ [(k, v)]) data (GetRequiredFields mfs)
    ⟨true, [], [], []⟩ hagree]
  rw [List.foldl_append]
  simp [dataStep, h]

/-- Claim C8 (witness): extending concrete data with the unknown key
`zz` leaves the validation result unchanged. -/
theorem validate_ignores_unknown_keys_witness :
    Validate exSetC1 ([(str "a", JValue.jstr (str "x"))] ++
        [(str "zz", JValue.jnull)]) =
      Validate exSetC1 [(str "a", JValue.jstr (str "x"))] :=
  validate_ignores_unknown_keys exSetC1 [(str "a", JValue.jstr (str "x"))]
    (str "zz") JValue.jnull rfl

/-! ### Escaping lemmas -/

theorem replaceAllChar_append (a b : Str) (c : Char) (r : Str) :
    replaceAllChar (a ++ b) c r = replaceAllChar a c r ++ replaceAllChar b c r := by
  induction a with
  | nil => simp [replaceAllChar]
  | cons x t ih => simp [replaceAllChar, ih]

theorem escapeXML_append (a b : Str) :
    escapeXML (a ++ b) = escapeXML a ++ escapeXML b := by
  unfold escapeXML
  simp only [replaceAllChar_append]

theorem escapeXML_single (x : Char) : escapeXML [x] = escChar x := by
  by_cases h1 : x = '&'
  · subst h1; rfl
  by_cases h2 : x = '<'
  · subst h2; rfl
  by_cases h3 : x = '>'
  · subst h3; rfl
  by_cases h4 : x = '"'
  · subst h4; rfl
  by_cases h5 : x = '\''
  · subst h5; rfl
  simp [escapeXML, replaceAllChar, escChar, h1, h2, h3, h4, h5]

theorem escapeXML_flatMap (s : Str) : escapeXML s = s.bind escChar := by
  induction s with
  | nil => rfl
  | cons x t ih =>
    have h : escapeXML (x :: t) = escChar x ++ escapeXML t := by
      have hx : x :: t = [x] ++ t := rfl
      rw [hx, escapeXML_append, escapeXML_single]
    rw [h, ih]
    rfl

theorem escChar_no_specials (x : Char) :
    '<' ∉ escChar x ∧ '>' ∉ escChar x ∧ '"' ∉ escChar x ∧ '\'' ∉ escChar x := by
  unfold escChar
  by_cases h1 : x = '&'
  · subst h1; simp; decide
  by_cases h2 : x = '<'
  · subst h2; simp; decide
  by_cases h3 : x = '>'
  · subst h3; simp; decide
  by_cases h4 : x = '"'
  · subst h4; simp; decide
  by_cases h5 : x = '\''
  · subst h5; simp; decide
  simp only [h1, h2, h3, h4, h5, if_false]
  exact ⟨fun hc => h2 ((List.mem_singleton.mp hc).symm),
         fun hc => h3 ((List.mem_singleton.mp hc).symm),
         fun hc => h4 ((List.mem_singleton.mp hc).symm),
         fun hc => h5 ((List.mem_singleton.mp hc).symm)⟩

/-- Claim C9: the substituted text is the looked-up value rendered to
text (strings verbatim, booleans as `true`/`false`) and then
XML-escaped: `escapeXML` is the pointwise extension of the five-entity
character map, its output never contains a raw `<`, `>`, `"` or `'`
(and `&` only as an entity head, by the first conjunct), and the
found-value substitution path emits exactly the escaped rendering inside
the text element. -/
theorem substitution_escapes_xml :
    (∀ s : Str, escapeXML s = s.bind escChar) ∧
    (∀ s : Str, '<' ∉ escapeXML s ∧ '>' ∉ escapeXML s ∧ '"' ∉ escapeXML s ∧
      '\'' ∉ escapeXML s) ∧
    (∀ s : Str, renderJValue (JValue.jstr s) = s) ∧
    (∀ b : Bool, renderJValue (JValue.jbool b) =
      if b then str "true" else str "false") ∧
    (∀ (data : MergeData) (processed skipped : List Str) (attrs cap v : Str),
      '«' ∉ attrs → cap ≠ [] → '»' ∉ cap → trimSpace cap = cap →
      containsStr processed cap = false →
      getCaseInsensitiveValue data cap = some v →
      (processFld data processed skipped attrs cap).1 =
        str "<w:t" ++ attrs ++ str ">" ++ escapeXML v ++ str "</w:t>") := by
  refine ⟨escapeXML_flatMap, ?_, fun s => rfl, fun b => by cases b <;> rfl, ?_⟩
  · intro s
    rw [escapeXML_flatMap]
    have hmem : ∀ c : Char, c ∈ s.bind escChar → ∃ x ∈ s, c ∈ escChar x := by
      intro c hc
      exact List.mem_bind.mp hc
    refine ⟨?_, ?_, ?_, ?_⟩ <;>
      · intro hc
        obtain ⟨x, _, hx⟩ := hmem _ hc
        have := escChar_no_specials x
        tauto
  · intro data processed skipped attrs cap v hattrs hcapne hcapm htrim hproc hval
    unfold processFld
    dsimp only
    rw [extractFieldName_eval attrs cap hattrs hcapne hcapm]
    dsimp only
    rw [htrim, if_neg (by rw [hproc]; simp), hval]
    dsimp only
    rw [replaceFirst_marker attrs cap (escapeXML v) hattrs]

set_option maxRecDepth 8192 in
/-- Claim C9 (witness): substituting the value `a<b&c` for field `F`
yields the escaped text inside the run. -/
theorem substitution_escapes_xml_witness :
    (processFld [(str "F", JValue.jstr (str "a<b&c"))] [] [] (str "") (str "F")).1 =
      str "<w:t" ++ str "" ++ str ">" ++ escapeXML (str "a<b&c") ++ str "</w:t>" :=
  substitution_escapes_xml.2.2.2.2 [(str "F", JValue.jstr (str "a<b&c"))] [] []
    (str "") (str "F") (str "a<b&c") (by decide) (by decide) (by decide)
    (by decide) (by decide) rfl

/-! ### Parser prefix-stability lemmas

`parseMergeData` returns right after the closing-brace token: no byte
after the consumed prefix is ever examined.  The lemmas below make that
precise: a successful parse of `s` transports to `s ++ extra` with the
extra bytes appended, untouched, to the remainder. -/

theorem skipWS_cons_append (s : Str) (c : Char) (r e : Str)
    (h : skipWS s = c :: r) : skipWS (s ++ e) = c :: (r ++ e) := by
  induction s with
  | nil => exact absurd h (by simp [skipWS])
  | cons x t ih =>
    simp only [skipWS, List.cons_append] at h ⊢
    by_cases hx : isJsonWS x = true
    · rw [if_pos hx] at h ⊢
      exact ih h
    · rw [if_neg hx] at h ⊢
      rw [List.cons.injEq] at h
      rw [h.1, h.2]
      rfl

theorem expectChar_append (c : Char) (s r e : Str)
    (h : expectChar c s = Except.ok r) : expectChar c (s ++ e) = Except.ok (r ++ e) := by
  cases s with
  | nil => exact absurd h (by simp [expectChar])
  | cons x t =>
    simp only [expectChar, List.cons_append] at h ⊢
    by_cases hx : x = c
    · rw [if_pos hx] at h ⊢
      rw [Except.ok.injEq] at h
      rw [h]
    · rw [if_neg hx] at h
      exact absurd h (by simp)


theorem stripLit_append (lit s r e : Str) (h : stripLit lit s = some r) :
    stripLit lit (s ++ e) = some (r ++ e) := by
  have hs := stripLit_some lit s r h
  subst hs
  unfold stripLit
  rw [List.append_assoc, if_pos (List.isPrefixOf_iff_prefix.mpr
    (List.prefix_append _ _)), List.drop_left]

theorem mem_takeWhile (p : Char → Bool) :
    ∀ (l : Str) (x : Char), x ∈ l.takeWhile p → p x = true := by
  intro l
  induction l with
  | nil => intro x hx; simp at hx
  | cons c t ih =>
    intro x hx
    rw [List.takeWhile_cons] at hx
    by_cases hc : p c = true
    · rw [if_pos hc] at hx
      rcases List.mem_cons.mp hx with hx | hx
      · rw [hx]; exact hc
      · exact ih x hx
    · rw [if_neg hc] at hx
      simp at hx

theorem dropWhile_head_not (p : Char → Bool) :
    ∀ (l : Str) (c : Char) (r : Str), l.dropWhile p = c :: r → p c = false := by
  intro l
  induction l with
  | nil => intro c r h; simp at h
  | cons x t ih =>
    intro c r h
    rw [List.dropWhile_cons] at h
    by_cases hx : p x = true
    · rw [if_pos hx] at h
      exact ih c r h
    · rw [if_neg hx] at h
      rw [List.cons.injEq] at h
      obtain ⟨h1, h2⟩ := h
      subst h1
      rw [Bool.not_eq_true] at hx
      exact hx

theorem parseNumLit_append (s e lit : Str) (c : Char) (r0 : Str)
    (h : parseNumLit s = Except.ok (lit, c :: r0)) :
    parseNumLit (s ++ e) = Except.ok (lit, (c :: r0) ++ e) := by
  unfold parseNumLit at h ⊢
  dsimp only at h ⊢
  by_cases hemp : (s.takeWhile isNumChar).isEmpty = true
  · rw [if_pos hemp] at h
    exact absurd h (by simp)
  · rw [if_neg hemp] at h
    rw [Except.ok.injEq, Prod.mk.injEq] at h
    obtain ⟨hlit, hdrop⟩ := h
    have hpc : isNumChar c = false := dropWhile_head_not _ s c r0 hdrop
    have hdecomp : s = s.takeWhile isNumChar ++ (c :: r0) := by
      conv_lhs => rw [← List.takeWhile_append_dropWhile (p := isNumChar) (l := s)]
      rw [hdrop]
    have hall : ∀ x ∈ s.takeWhile isNumChar, isNumChar x = true := mem_takeWhile _ _
    have htake : ((s ++ e).takeWhile isNumChar) = s.takeWhile isNumChar := by
      conv_lhs => rw [hdecomp]
      rw [List.append_assoc, takeWhile_all _ _ _ hall, List.cons_append,
        List.takeWhile_cons, hpc]
      simp
    have hdrop2 : ((s ++ e).dropWhile isNumChar) = (c :: r0) ++ e := by
      conv_lhs => rw [hdecomp]
      rw [List.append_assoc, dropWhile_all _ _ _ hall, List.cons_append,
        List.dropWhile_cons, hpc]
      simp
    rw [htake, hdrop2, if_neg hemp, hlit]

theorem parseStringBody_nil_ne_ok (fuel : Nat) (cs rem : Str) :
    parseStringBody fuel [] ≠ Except.ok (cs, rem) := by
  cases fuel <;> simp [parseStringBody]

theorem parseStringBody_append (e : Str) :
    ∀ (fuel : Nat) (s cs rem : Str),
      parseStringBody fuel s = Except.ok (cs, rem) →
      parseStringBody fuel (s ++ e) = Except.ok (cs, rem ++ e) := by
  intro fuel
  induction fuel with
  | zero => intro s cs rem h; exact absurd h (by simp [parseStringBody])
  | succ fuel ih =>
    intro s cs rem h
    cases s with
    | nil => exact absurd h (parseStringBody_nil_ne_ok _ _ _)
    | cons c rest =>
      simp only [parseStringBody, List.cons_append] at h ⊢
      by_cases hq : c = '"'
      · rw [if_pos hq] at h ⊢
        rw [Except.ok.injEq, Prod.mk.injEq] at h
        rw [← h.1, ← h.2]
      · rw [if_neg hq] at h ⊢
        by_cases hb : c = '\\'
        · rw [if_pos hb] at h ⊢
          cases rest with
          | nil => exact absurd h (by simp)
          | cons e0 rest' =>
            simp only [List.cons_append] at h ⊢
            by_cases hu : e0 = 'u'
            · rw [if_pos hu] at h ⊢
              match rest' with
              | [] => exact absurd h (by simp)
              | [x1] => exact absurd h (by simp)
              | [x1, x2] => exact absurd h (by simp)
              | [x1, x2, x3] => exact absurd h (by simp)
              | x1 :: x2 :: x3 :: x4 :: rest2 =>
                simp only [List.cons_append] at h ⊢
                by_cases hhex : (isHexDigit x1 && isHexDigit x2 && isHexDigit x3 &&
                    isHexDigit x4) = true
                · rw [if_pos hhex] at h ⊢
                  cases hrec : parseStringBody fuel rest2 with
                  | error err => rw [hrec] at h; exact absurd h (by simp)
                  | ok p =>
                    obtain ⟨cs', rem'⟩ := p
                    rw [hrec] at h
                    dsimp only at h
                    rw [Except.ok.injEq, Prod.mk.injEq] at h
                    rw [ih rest2 cs' rem' hrec]
                    dsimp only
                    rw [← h.1, ← h.2]
                · rw [if_neg hhex] at h
                  exact absurd h (by simp)
            · rw [if_neg hu] at h ⊢
              cases hesc : unescapeChar e0 with
              | none => rw [hesc] at h; exact absurd h (by simp)
              | some c0 =>
                rw [hesc] at h
                dsimp only at h ⊢
                cases hrec : parseStringBody fuel rest' with
                | error err => rw [hrec] at h; exact absurd h (by simp)
                | ok p =>
                  obtain ⟨cs', rem'⟩ := p
                  rw [hrec] at h
                  dsimp only at h
                  rw [Except.ok.injEq, Prod.mk.injEq] at h
                  rw [ih rest' cs' rem' hrec]
                  dsimp only
                  rw [← h.1, ← h.2]
        · rw [if_neg hb] at h ⊢
          cases hrec : parseStringBody fuel rest with
          | error err => rw [hrec] at h; exact absurd h (by simp)
          | ok p =>
            obtain ⟨cs', rem'⟩ := p
            rw [hrec] at h
            dsimp only at h
            rw [Except.ok.injEq, Prod.mk.injEq] at h
            rw [ih rest cs' rem' hrec]
            dsimp only
            rw [← h.1, ← h.2]

theorem expectChar_ok (c : Char) (s r : Str) (h : expectChar c s = Except.ok r) :
    s = c :: r := by
  cases s with
  | nil => exact absurd h (by simp [expectChar])
  | cons x t =>
    simp only [expectChar] at h
    by_cases hx : x = c
    · rw [if_pos hx] at h
      rw [Except.ok.injEq] at h
      rw [hx, h]
    · rw [if_neg hx] at h
      exact absurd h (by simp)

theorem parserTrio_append (e : Str) : ∀ fuel : Nat,
    (∀ s v rem, parseValue fuel s = Except.ok (v, rem) → rem ≠ [] →
      parseValue fuel (s ++ e) = Except.ok (v, rem ++ e)) ∧
    (∀ s acc entries rem, parseObjEntries fuel s acc = Except.ok (entries, rem) →
      rem ≠ [] → parseObjEntries fuel (s ++ e) acc = Except.ok (entries, rem ++ e)) ∧
    (∀ s acc elems rem, parseArrElems fuel s acc = Except.ok (elems, rem) →
      rem ≠ [] → parseArrElems fuel (s ++ e) acc = Except.ok (elems, rem ++ e)) := by
  intro fuel
  induction fuel with
  | zero =>
    refine ⟨?_, ?_, ?_⟩
    · intro s v rem h
      exact absurd h (by simp [parseValue])
    · intro s acc entries rem h
      exact absurd h (by simp [parseObjEntries])
    · intro s acc elems rem h
      exact absurd h (by simp [parseArrElems])
  | succ fuel ih =>
    obtain ⟨ihV, ihO, ihA⟩ := ih
    refine ⟨?_, ?_, ?_⟩
    · intro s v rem h hrem
      rw [parseValue] at h ⊢
      cases hws : skipWS s with
      | nil => rw [hws] at h; exact absurd h (by simp)
      | cons c rest =>
        rw [hws] at h
        rw [skipWS_cons_append s c rest e hws]
        dsimp only at h ⊢
        by_cases h1 : c = '"'
        · rw [if_pos h1] at h ⊢
          cases hsb : parseStringBody fuel rest with
          | error err => rw [hsb] at h; exact absurd h (by simp)
          | ok p =>
            obtain ⟨cs, rem'⟩ := p
            rw [hsb] at h
            dsimp only at h
            rw [Except.ok.injEq, Prod.mk.injEq] at h
            rw [parseStringBody_append e fuel rest cs rem' hsb]
            dsimp only
            rw [← h.1, ← h.2]
        · rw [if_neg h1] at h ⊢
          by_cases h2 : c = '\x7b'
          · rw [if_pos h2] at h ⊢
            cases hob : parseObjEntries fuel rest [] with
            | error err => rw [hob] at h; exact absurd h (by simp)
            | ok p =>
              obtain ⟨entries, rem'⟩ := p
              rw [hob] at h
              dsimp only at h
              rw [Except.ok.injEq, Prod.mk.injEq] at h
              have hrem' : rem' ≠ [] := by
                intro hE
                exact hrem (by rw [← h.2, hE])
              rw [ihO rest [] entries rem' hob hrem']
              dsimp only
              rw [← h.1, ← h.2]
          · rw [if_neg h2] at h ⊢
            by_cases h3 : c = '['
            · rw [if_pos h3] at h ⊢
              cases hws2 : skipWS rest with
              | nil => rw [hws2] at h; exact absurd h (by simp)
              | cons c2 rest2 =>
                rw [hws2] at h
                rw [skipWS_cons_append rest c2 rest2 e hws2]
                dsimp only at h ⊢
                by_cases h4 : c2 = ']'
                · rw [if_pos h4] at h ⊢
                  rw [Except.ok.injEq, Prod.mk.injEq] at h
                  rw [← h.1, ← h.2]
                · rw [if_neg h4] at h ⊢
                  cases har : parseArrElems fuel (c2 :: rest2) [] with
                  | error err => rw [har] at h; exact absurd h (by simp)
                  | ok p =>
                    obtain ⟨elems, rem'⟩ := p
                    rw [har] at h
                    dsimp only at h
                    rw [Except.ok.injEq, Prod.mk.injEq] at h
                    have hrem' : rem' ≠ [] := by
                      intro hE
                      exact hrem (by rw [← h.2, hE])
                    have := ihA (c2 :: rest2) [] elems rem' har hrem'
                    rw [List.cons_append] at this
                    rw [this]
                    dsimp only
                    rw [← h.1, ← h.2]
            · rw [if_neg h3] at h ⊢
              by_cases h5 : c = 't'
              · rw [if_pos h5] at h ⊢
                cases hsl : stripLit (str "rue") rest with
                | none => rw [hsl] at h; exact absurd h (by simp)
                | some rem' =>
                  rw [hsl] at h
                  dsimp only at h
                  rw [Except.ok.injEq, Prod.mk.injEq] at h
                  rw [stripLit_append _ rest rem' e hsl]
                  dsimp only
                  rw [← h.1, ← h.2]
              · rw [if_neg h5] at h ⊢
                by_cases h6 : c = 'f'
                · rw [if_pos h6] at h ⊢
                  cases hsl : stripLit (str "alse") rest with
                  | none => rw [hsl] at h; exact absurd h (by simp)
                  | some rem' =>
                    rw [hsl] at h
                    dsimp only at h
                    rw [Except.ok.injEq, Prod.mk.injEq] at h
                    rw [stripLit_append _ rest rem' e hsl]
                    dsimp only
                    rw [← h.1, ← h.2]
                · rw [if_neg h6] at h ⊢
                  by_cases h7 : c = 'n'
                  · rw [if_pos h7] at h ⊢
                    cases hsl : stripLit (str "ull") rest with
                    | none => rw [hsl] at h; exact absurd h (by simp)
                    | some rem' =>
                      rw [hsl] at h
                      dsimp only at h
                      rw [Except.ok.injEq, Prod.mk.injEq] at h
                      rw [stripLit_append _ rest rem' e hsl]
                      dsimp only
                      rw [← h.1, ← h.2]
                  · rw [if_neg h7] at h ⊢
                    by_cases h8 : isNumChar c = true
                    · rw [if_pos h8] at h ⊢
                      cases hnl : parseNumLit (c :: rest) with
                      | error err => rw [hnl] at h; exact absurd h (by simp)
                      | ok p =>
                        obtain ⟨lit, rem'⟩ := p
                        rw [hnl] at h
                        dsimp only at h
                        rw [Except.ok.injEq, Prod.mk.injEq] at h
                        have hrem' : rem' ≠ [] := by
                          intro hE
                          exact hrem (by rw [← h.2, hE])
                        cases rem' with
                        | nil => exact absurd rfl hrem'
                        | cons c' r0 =>
                          have := parseNumLit_append (c :: rest) e lit c' r0 hnl
                          rw [List.cons_append] at this
                          rw [this]
                          dsimp only
                          rw [← h.1, ← h.2]
                    · rw [if_neg h8] at h
                      exact absurd h (by simp)
    · intro s acc entries rem h hrem
      rw [parseObjEntries] at h ⊢
      cases hws : skipWS s with
      | nil => rw [hws] at h; exact absurd h (by simp)
      | cons c rest =>
        rw [hws] at h
        rw [skipWS_cons_append s c rest e hws]
        dsimp only at h ⊢
        by_cases h1 : c = '\x7d'
        · rw [if_pos h1] at h ⊢
          rw [Except.ok.injEq, Prod.mk.injEq] at h
          rw [← h.1, ← h.2]
        · rw [if_neg h1] at h ⊢
          by_cases h2 : c = '"'
          · rw [if_pos h2] at h ⊢
            cases hsb : parseStringBody fuel rest with
            | error err => rw [hsb] at h; exact absurd h (by simp)
            | ok p =>
              obtain ⟨key, afterKey⟩ := p
              rw [hsb] at h
              dsimp only at h
              rw [parseStringBody_append e fuel rest key afterKey hsb]
              dsimp only
              cases hec : expectChar ':' (skipWS afterKey) with
              | error err => rw [hec] at h; exact absurd h (by simp)
              | ok afterColon =>
                rw [hec] at h
                dsimp only at h
                have hak : skipWS afterKey = ':' :: afterColon :=
                  expectChar_ok ':' _ afterColon hec
                rw [skipWS_cons_append afterKey ':' afterColon e hak]
                rw [show expectChar ':' (':' :: (afterColon ++ e)) =
                  Except.ok (afterColon ++ e) from by simp [expectChar]]
                dsimp only
                cases hpv : parseValue fuel afterColon with
                | error err => rw [hpv] at h; exact absurd h (by simp)
                | ok p =>
                  obtain ⟨v, afterVal⟩ := p
                  rw [hpv] at h
                  dsimp only at h
                  cases hws2 : skipWS afterVal with
                  | nil => rw [hws2] at h; exact absurd h (by simp)
                  | cons c2 rest2 =>
                    rw [hws2] at h
                    dsimp only at h
                    have hAV : afterVal ≠ [] := by
                      intro hE
                      rw [hE] at hws2
                      simp [skipWS] at hws2
                    rw [ihV afterColon v afterVal hpv hAV]
                    dsimp only
                    rw [skipWS_cons_append afterVal c2 rest2 e hws2]
                    dsimp only
                    by_cases h3 : c2 = ','
                    · rw [if_pos h3] at h ⊢
                      exact ihO rest2 (mapSet acc key v) entries rem h hrem
                    · rw [if_neg h3] at h ⊢
                      by_cases h4 : c2 = '\x7d'
                      · rw [if_pos h4] at h ⊢
                        rw [Except.ok.injEq, Prod.mk.injEq] at h
                        rw [← h.1, ← h.2]
                      · rw [if_neg h4] at h
                        exact absurd h (by simp)
          · rw [if_neg h2] at h
            exact absurd h (by simp)
    · intro s acc elems rem h hrem
      rw [parseArrElems] at h ⊢
      cases hpv : parseValue fuel s with
      | error err => rw [hpv] at h; exact absurd h (by simp)
      | ok p =>
        obtain ⟨v, afterVal⟩ := p
        rw [hpv] at h
        dsimp only at h
        cases hws2 : skipWS afterVal with
        | nil => rw [hws2] at h; exact absurd h (by simp)
        | cons c2 rest2 =>
          rw [hws2] at h
          dsimp only at h
          have hAV : afterVal ≠ [] := by
            intro hE
            rw [hE] at hws2
            simp [skipWS] at hws2
          rw [ihV s v afterVal hpv hAV]
          dsimp only
          rw [skipWS_cons_append afterVal c2 rest2 e hws2]
          dsimp only
          by_cases h3 : c2 = ','
          · rw [if_pos h3] at h ⊢
            exact ihA rest2 (acc ++ [v]) elems rem h hrem
          · rw [if_neg h3] at h ⊢
            by_cases h4 : c2 = ']'
            · rw [if_pos h4] at h ⊢
              rw [Except.ok.injEq, Prod.mk.injEq] at h
              rw [← h.1, ← h.2]
            · rw [if_neg h4] at h
              exact absurd h (by simp)

theorem pairsMain_nil_ne_ok (fuel : Nat) (res : MergeData) (first : Bool)
    (m : MergeData) (rem : Str) :
    pairsMain fuel [] res first ≠ Except.ok (m, rem) := by
  cases fuel <;> simp [pairsMain, skipWS]

theorem pairsMain_append (e : Str) :
    ∀ (fuel : Nat) (s : Str) (res : MergeData) (first : Bool)
      (m : MergeData) (rem : Str),
      pairsMain fuel s res first = Except.ok (m, rem) →
      pairsMain fuel (s ++ e) res first = Except.ok (m, rem ++ e) := by
  intro fuel
  induction fuel with
  | zero =>
    intro s res first m rem h
    exact absurd h (by simp [pairsMain])
  | succ fuel ih =>
    intro s res first m rem h
    rw [pairsMain] at h ⊢
    cases hws : skipWS s with
    | nil => rw [hws] at h; exact absurd h (by simp)
    | cons c rest =>
      rw [hws] at h
      rw [skipWS_cons_append s c rest e hws]
      dsimp only at h ⊢
      by_cases h1 : c = '\x7d'
      · rw [if_pos h1] at h ⊢
        rw [Except.ok.injEq, Prod.mk.injEq] at h
        rw [← h.1, ← h.2]
      · rw [if_neg h1] at h ⊢
        cases hstep : (if first then Except.ok (c :: rest)
            else expectChar ',' (c :: rest)) with
        | error err => rw [hstep] at h; exact absurd h (by simp)
        | ok s2 =>
          rw [hstep] at h
          dsimp only at h
          have hstep2 : (if first then Except.ok (c :: (rest ++ e))
              else expectChar ',' (c :: (rest ++ e))) = Except.ok (s2 ++ e) := by
            cases first with
            | true =>
              rw [if_pos rfl] at hstep ⊢
              rw [Except.ok.injEq] at hstep
              rw [← hstep]
              rfl
            | false =>
              rw [if_neg (by simp)] at hstep ⊢
              have := expectChar_append ',' (c :: rest) s2 e hstep
              rw [List.cons_append] at this
              exact this
          rw [hstep2]
          dsimp only
          cases hws3 : skipWS s2 with
          | nil => rw [hws3] at h; exact absurd h (by simp)
          | cons c2 rest2 =>
            rw [hws3] at h
            rw [skipWS_cons_append s2 c2 rest2 e hws3]
            dsimp only at h ⊢
            by_cases h2 : c2 = '"'
            · rw [if_pos h2] at h ⊢
              cases hsb : parseStringBody fuel rest2 with
              | error err => rw [hsb] at h; exact absurd h (by simp)
              | ok p =>
                obtain ⟨key, afterKey⟩ := p
                rw [hsb] at h
                dsimp only at h
                rw [parseStringBody_append e fuel rest2 key afterKey hsb]
                dsimp only
                cases hec : expectChar ':' (skipWS afterKey) with
                | error err => rw [hec] at h; exact absurd h (by simp)
                | ok afterColon =>
                  rw [hec] at h
                  dsimp only at h
                  have hak : skipWS afterKey = ':' :: afterColon :=
                    expectChar_ok ':' _ afterColon hec
                  rw [skipWS_cons_append afterKey ':' afterColon e hak]
                  rw [show expectChar ':' (':' :: (afterColon ++ e)) =
                    Except.ok (afterColon ++ e) from by simp [expectChar]]
                  dsimp only
                  by_cases hdup : (mapGet res key).isSome = true
                  · rw [if_pos hdup] at h ⊢
                    cases hpv : parseValue fuel afterColon with
                    | error err => rw [hpv] at h; exact absurd h (by simp)
                    | ok p =>
                      obtain ⟨v, afterVal⟩ := p
                      rw [hpv] at h
                      dsimp only at h
                      have hAV : afterVal ≠ [] := by
                        intro hE
                        rw [hE] at h
                        exact pairsMain_nil_ne_ok fuel res false m rem h
                      rw [(parserTrio_append e fuel).1 afterColon v afterVal hpv hAV]
                      dsimp only
                      exact ih afterVal res false m rem h
                  · rw [if_neg hdup] at h ⊢
                    cases hpv : parseValue fuel afterColon with
                    | error err => rw [hpv] at h; exact absurd h (by simp)
                    | ok p =>
                      obtain ⟨v, afterVal⟩ := p
                      rw [hpv] at h
                      dsimp only at h
                      have hAV : afterVal ≠ [] := by
                        intro hE
                        rw [hE] at h
                        exact pairsMain_nil_ne_ok fuel (mapSet res key v) false m rem h
                      rw [(parserTrio_append e fuel).1 afterColon v afterVal hpv hAV]
                      dsimp only
                      exact ih afterVal (mapSet res key v) false m rem h
            · rw [if_neg h2] at h
              exact absurd h (by simp)

theorem pairsFields_nil_ne_ok (fuel : Nat) (res : MergeData) (first : Bool)
    (m : MergeData) (rem : Str) :
    pairsFields fuel [] res first ≠ Except.ok (m, rem) := by
  cases fuel <;> simp [pairsFields, skipWS]

theorem pairsFields_append (e : Str) :
    ∀ (fuel : Nat) (s : Str) (res : MergeData) (first : Bool)
      (m : MergeData) (rem : Str),
      pairsFields fuel s res first = Except.ok (m, rem) →
      pairsFields fuel (s ++ e) res first = Except.ok (m, rem ++ e) := by
  intro fuel
  induction fuel with
  | zero =>
    intro s res first m rem h
    exact absurd h (by simp [pairsFields])
  | succ fuel ih =>
    intro s res first m rem h
    rw [pairsFields] at h ⊢
    cases hws : skipWS s with
    | nil => rw [hws] at h; exact absurd h (by simp)
    | cons c rest =>
      rw [hws] at h
      rw [skipWS_cons_append s c rest e hws]
      dsimp only at h ⊢
      by_cases h1 : c = '\x7d'
      · rw [if_pos h1] at h ⊢
        rw [Except.ok.injEq, Prod.mk.injEq] at h
        rw [← h.1, ← h.2]
      · rw [if_neg h1] at h ⊢
        cases hstep : (if first then Except.ok (c :: rest)
            else expectChar ',' (c :: rest)) with
        | error err => rw [hstep] at h; exact absurd h (by simp)
        | ok s2 =>
          rw [hstep] at h
          dsimp only at h
          have hstep2 : (if first then Except.ok (c :: (rest ++ e))
              else expectChar ',' (c :: (rest ++ e))) = Except.ok (s2 ++ e) := by
            cases first with
            | true =>
              rw [if_pos rfl] at hstep ⊢
              rw [Except.ok.injEq] at hstep
              rw [← hstep]
              rfl
            | false =>
              rw [if_neg (by simp)] at hstep ⊢
              have := expectChar_append ',' (c :: rest) s2 e hstep
              rw [List.cons_append] at this
              exact this
          rw [hstep2]
          dsimp only
          cases hws3 : skipWS s2 with
          | nil => rw [hws3] at h; exact absurd h (by simp)
          | cons c2 rest2 =>
            rw [hws3] at h
            rw [skipWS_cons_append s2 c2 rest2 e hws3]
            dsimp only at h ⊢
            by_cases h2 : c2 = '"'
            · rw [if_pos h2] at h ⊢
              cases hsb : parseStringBody fuel rest2 with
              | error err => rw [hsb] at h; exact absurd h (by simp)
              | ok p =>
                obtain ⟨key, afterKey⟩ := p
                rw [hsb] at h
                dsimp only at h
                rw [parseStringBody_append e fuel rest2 key afterKey hsb]
                dsimp only
                cases hec : expectChar ':' (skipWS afterKey) with
                | error err => rw [hec] at h; exact absurd h (by simp)
                | ok afterColon =>
                  rw [hec] at h
                  dsimp only at h
                  have hak : skipWS afterKey = ':' :: afterColon :=
                    expectChar_ok ':' _ afterColon hec
                  rw [skipWS_cons_append afterKey ':' afterColon e hak]
                  rw [show expectChar ':' (':' :: (afterColon ++ e)) =
                    Except.ok (afterColon ++ e) from by simp [expectChar]]
                  dsimp only
                  by_cases hdup : (((res.find? (fun kv =>
                      normName kv.1 == normName key)).map Prod.fst).getD []) ≠ []
                  · rw [if_pos hdup] at h ⊢
                    cases hpv : parseValue fuel afterColon with
                    | error err => rw [hpv] at h; exact absurd h (by simp)
                    | ok p =>
                      obtain ⟨v, afterVal⟩ := p
                      rw [hpv] at h
                      dsimp only at h
                      have hAV : afterVal ≠ [] := by
                        intro hE
                        rw [hE] at h
                        exact pairsFields_nil_ne_ok fuel res false m rem h
                      rw [(parserTrio_append e fuel).1 afterColon v afterVal hpv hAV]
                      dsimp only
                      exact ih afterVal res false m rem h
                  · rw [if_neg hdup] at h ⊢
                    cases hpv : parseValue fuel afterColon with
                    | error err => rw [hpv] at h; exact absurd h (by simp)
                    | ok p =>
                      obtain ⟨v, afterVal⟩ := p
                      rw [hpv] at h
                      dsimp only at h
                      have hAV : afterVal ≠ [] := by
                        intro hE
                        rw [hE] at h
                        exact pairsFields_nil_ne_ok fuel (mapSet res key v) false m rem h
                      rw [(parserTrio_append e fuel).1 afterColon v afterVal hpv hAV]
                      dsimp only
                      exact ih afterVal (mapSet res key v) false m rem h
            · rw [if_neg h2] at h
              exact absurd h (by simp)

theorem parseStringBody_mono :
    ∀ (fuel fuel' : Nat), fuel ≤ fuel' →
      ∀ (s cs rem : Str), parseStringBody fuel s = Except.ok (cs, rem) →
        parseStringBody fuel' s = Except.ok (cs, rem) := by
  intro fuel
  induction fuel with
  | zero =>
    intro fuel' _ s cs rem h
    exact absurd h (by simp [parseStringBody])
  | succ fuel ih =>
    intro fuel' hle s cs rem h
    cases fuel' with
    | zero => omega
    | succ f' =>
      have hle' : fuel ≤ f' := by omega
      cases s with
      | nil => exact absurd h (parseStringBody_nil_ne_ok _ _ _)
      | cons c rest =>
        simp only [parseStringBody] at h ⊢
        by_cases hq : c = '"'
        · rw [if_pos hq] at h ⊢
          exact h
        · rw [if_neg hq] at h ⊢
          by_cases hb : c = '\\'
          · rw [if_pos hb] at h ⊢
            cases rest with
            | nil => exact absurd h (by simp)
            | cons e0 rest' =>
              dsimp only at h ⊢
              by_cases hu : e0 = 'u'
              · rw [if_pos hu] at h ⊢
                match rest' with
                | [] => exact absurd h (by simp)
                | [x1] => exact absurd h (by simp)
                | [x1, x2] => exact absurd h (by simp)
                | [x1, x2, x3] => exact absurd h (by simp)
                | x1 :: x2 :: x3 :: x4 :: rest2 =>
                  dsimp only at h ⊢
                  by_cases hhex : (isHexDigit x1 && isHexDigit x2 && isHexDigit x3 &&
                      isHexDigit x4) = true
                  · rw [if_pos hhex] at h ⊢
                    cases hrec : parseStringBody fuel rest2 with
                    | error err => rw [hrec] at h; exact absurd h (by simp)
                    | ok p =>
                      obtain ⟨cs', rem'⟩ := p
                      rw [hrec] at h
                      rw [ih f' hle' rest2 cs' rem' hrec]
                      exact h
                  · rw [if_neg hhex] at h
                    exact absurd h (by simp)
              · rw [if_neg hu] at h ⊢
                cases hesc : unescapeChar e0 with
                | none => rw [hesc] at h; exact absurd h (by simp)
                | some c0 =>
                  rw [hesc] at h
                  dsimp only at h ⊢
                  cases hrec : parseStringBody fuel rest' with
                  | error err => rw [hrec] at h; exact absurd h (by simp)
                  | ok p =>
                    obtain ⟨cs', rem'⟩ := p
                    rw [hrec] at h
                    rw [ih f' hle' rest' cs' rem' hrec]
                    exact h
          · rw [if_neg hb] at h ⊢
            cases hrec : parseStringBody fuel rest with
            | error err => rw [hrec] at h; exact absurd h (by simp)
            | ok p =>
              obtain ⟨cs', rem'⟩ := p
              rw [hrec] at h
              rw [ih f' hle' rest cs' rem' hrec]
              exact h

theorem parserTrio_mono : ∀ (fuel fuel' : Nat), fuel ≤ fuel' →
    (∀ s v rem, parseValue fuel s = Except.ok (v, rem) →
      parseValue fuel' s = Except.ok (v, rem)) ∧
    (∀ s acc entries rem, parseObjEntries fuel s acc = Except.ok (entries, rem) →
      parseObjEntries fuel' s acc = Except.ok (entries, rem)) ∧
    (∀ s acc elems rem, parseArrElems fuel s acc = Except.ok (elems, rem) →
      parseArrElems fuel' s acc = Except.ok (elems, rem)) := by
  intro fuel
  induction fuel with
  | zero =>
    intro fuel' _
    refine ⟨?_, ?_, ?_⟩
    · intro s v rem h
      exact absurd h (by simp [parseValue])
    · intro s acc entries rem h
      exact absurd h (by simp [parseObjEntries])
    · intro s acc elems rem h
      exact absurd h (by simp [parseArrElems])
  | succ fuel ih =>
    intro fuel' hle
    cases fuel' with
    | zero => omega
    | succ f' =>
      have hle' : fuel ≤ f' := by omega
      obtain ⟨ihV, ihO, ihA⟩ := ih f' hle'
      refine ⟨?_, ?_, ?_⟩
      · intro s v rem h
        rw [parseValue] at h ⊢
        cases hws : skipWS s with
        | nil => rw [hws] at h; exact absurd h (by simp)
        | cons c rest =>
          rw [hws] at h
          dsimp only at h ⊢
          by_cases h1 : c = '"'
          · rw [if_pos h1] at h ⊢
            cases hsb : parseStringBody fuel rest with
            | error err => rw [hsb] at h; exact absurd h (by simp)
            | ok p =>
              obtain ⟨cs, rem'⟩ := p
              rw [hsb] at h
              rw [parseStringBody_mono fuel f' hle' rest cs rem' hsb]
              exact h
          · rw [if_neg h1] at h ⊢
            by_cases h2 : c = '\x7b'
            · rw [if_pos h2] at h ⊢
              cases hob : parseObjEntries fuel rest [] with
              | error err => rw [hob] at h; exact absurd h (by simp)
              | ok p =>
                obtain ⟨entries, rem'⟩ := p
                rw [hob] at h
                rw [ihO rest [] entries rem' hob]
                exact h
            · rw [if_neg h2] at h ⊢
              by_cases h3 : c = '['
              · rw [if_pos h3] at h ⊢
                cases hws2 : skipWS rest with
                | nil => rw [hws2] at h; exact absurd h (by simp)
                | cons c2 rest2 =>
                  rw [hws2] at h
                  dsimp only at h ⊢
                  by_cases h4 : c2 = ']'
                  · rw [if_pos h4] at h ⊢
                    exact h
                  · rw [if_neg h4] at h ⊢
                    cases har : parseArrElems fuel (c2 :: rest2) [] with
                    | error err => rw [har] at h; exact absurd h (by simp)
                    | ok p =>
                      obtain ⟨elems, rem'⟩ := p
                      rw [har] at h
                      rw [ihA (c2 :: rest2) [] elems rem' har]
                      exact h
              · rw [if_neg h3] at h ⊢
                exact h
      · intro s acc entries rem h
        rw [parseObjEntries] at h ⊢
        cases hws : skipWS s with
        | nil => rw [hws] at h; exact absurd h (by simp)
        | cons c rest =>
          rw [hws] at h
          dsimp only at h ⊢
          by_cases h1 : c = '\x7d'
          · rw [if_pos h1] at h ⊢
            exact h
          · rw [if_neg h1] at h ⊢
            by_cases h2 : c = '"'
            · rw [if_pos h2] at h ⊢
              cases hsb : parseStringBody fuel rest with
              | error err => rw [hsb] at h; exact absurd h (by simp)
              | ok p =>
                obtain ⟨key, afterKey⟩ := p
                rw [hsb] at h
                rw [parseStringBody_mono fuel f' hle' rest key afterKey hsb]
                dsimp only at h ⊢
                cases hec : expectChar ':' (skipWS afterKey) with
                | error err => rw [hec] at h; exact absurd h (by simp)
                | ok afterColon =>
                  rw [hec] at h
                  dsimp only at h ⊢
                  cases hpv : parseValue fuel afterColon with
                  | error err => rw [hpv] at h; exact absurd h (by simp)
                  | ok p =>
                    obtain ⟨v, afterVal⟩ := p
                    rw [hpv] at h
                    rw [ihV afterColon v afterVal hpv]
                    dsimp only at h ⊢
                    cases hws2 : skipWS afterVal with
                    | nil => rw [hws2] at h; exact absurd h (by simp)
                    | cons c2 rest2 =>
                      rw [hws2] at h
                      dsimp only at h ⊢
                      by_cases h3 : c2 = ','
                      · rw [if_pos h3] at h ⊢
                        exact ihO rest2 (mapSet acc key v) entries rem h
                      · rw [if_neg h3] at h ⊢
                        exact h
            · rw [if_neg h2] at h
              exact absurd h (by simp)
      · intro s acc elems rem h
        rw [parseArrElems] at h ⊢
        cases hpv : parseValue fuel s with
        | error err => rw [hpv] at h; exact absurd h (by simp)
        | ok p =>
          obtain ⟨v, afterVal⟩ := p
          rw [hpv] at h
          rw [ihV s v afterVal hpv]
          dsimp only at h ⊢
          cases hws2 : skipWS afterVal with
          | nil => rw [hws2] at h; exact absurd h (by simp)
          | cons c2 rest2 =>
            rw [hws2] at h
            dsimp only at h ⊢
            by_cases h3 : c2 = ','
            · rw [if_pos h3] at h ⊢
              exact ihA rest2 (acc ++ [v]) elems rem h
            · rw [if_neg h3] at h ⊢
              exact h

theorem pairsMain_mono :
    ∀ (fuel fuel' : Nat), fuel ≤ fuel' →
      ∀ (s : Str) (res : MergeData) (first : Bool) (m : MergeData) (rem : Str),
        pairsMain fuel s res first = Except.ok (m, rem) →
        pairsMain fuel' s res first = Except.ok (m, rem) := by
  intro fuel
  induction fuel with
  | zero =>
    intro fuel' _ s res first m rem h
    exact absurd h (by simp [pairsMain])
  | succ fuel ih =>
    intro fuel' hle s res first m rem h
    cases fuel' with
    | zero => omega
    | succ f' =>
      have hle' : fuel ≤ f' := by omega
      rw [pairsMain] at h ⊢
      cases hws : skipWS s with
      | nil => rw [hws] at h; exact absurd h (by simp)
      | cons c rest =>
        rw [hws] at h
        dsimp only at h ⊢
        by_cases h1 : c = '\x7d'
        · rw [if_pos h1] at h ⊢
          exact h
        · rw [if_neg h1] at h ⊢
          cases hstep : (if first then Except.ok (c :: rest)
              else expectChar ',' (c :: rest)) with
          | error err => rw [hstep] at h; exact absurd h (by simp)
          | ok s2 =>
            rw [hstep] at h
            dsimp only at h ⊢
            cases hws3 : skipWS s2 with
            | nil => rw [hws3] at h; exact absurd h (by simp)
            | cons c2 rest2 =>
              rw [hws3] at h
              dsimp only at h ⊢
              by_cases h2 : c2 = '"'
              · rw [if_pos h2] at h ⊢
                cases hsb : parseStringBody fuel rest2 with
                | error err => rw [hsb] at h; exact absurd h (by simp)
                | ok p =>
                  obtain ⟨key, afterKey⟩ := p
                  rw [hsb] at h
                  rw [parseStringBody_mono fuel f' hle' rest2 key afterKey hsb]
                  dsimp only at h ⊢
                  cases hec : expectChar ':' (skipWS afterKey) with
                  | error err => rw [hec] at h; exact absurd h (by simp)
                  | ok afterColon =>
                    rw [hec] at h
                    dsimp only at h ⊢
                    by_cases hdup : (mapGet res key).isSome = true
                    · rw [if_pos hdup] at h ⊢
                      cases hpv : parseValue fuel afterColon with
                      | error err => rw [hpv] at h; exact absurd h (by simp)
                      | ok p =>
                        obtain ⟨v, afterVal⟩ := p
                        rw [hpv] at h
                        rw [(parserTrio_mono fuel f' hle').1 afterColon v afterVal hpv]
                        dsimp only at h ⊢
                        exact ih f' hle' afterVal res false m rem h
                    · rw [if_neg hdup] at h ⊢
                      cases hpv : parseValue fuel afterColon with
                      | error err => rw [hpv] at h; exact absurd h (by simp)
                      | ok p =>
                        obtain ⟨v, afterVal⟩ := p
                        rw [hpv] at h
                        rw [(parserTrio_mono fuel f' hle').1 afterColon v afterVal hpv]
                        dsimp only at h ⊢
                        exact ih f' hle' afterVal (mapSet res key v) false m rem h
              · rw [if_neg h2] at h
                exact absurd h (by simp)

theorem pairsFields_mono :
    ∀ (fuel fuel' : Nat), fuel ≤ fuel' →
      ∀ (s : Str) (res : MergeData) (first : Bool) (m : MergeData) (rem : Str),
        pairsFields fuel s res first = Except.ok (m, rem) →
        pairsFields fuel' s res first = Except.ok (m, rem) := by
  intro fuel
  induction fuel with
  | zero =>
    intro fuel' _ s res first m rem h
    exact absurd h (by simp [pairsFields])
  | succ fuel ih =>
    intro fuel' hle s res first m rem h
    cases fuel' with
    | zero => omega
    | succ f' =>
      have hle' : fuel ≤ f' := by omega
      rw [pairsFields] at h ⊢
      cases hws : skipWS s with
      | nil => rw [hws] at h; exact absurd h (by simp)
      | cons c rest =>
        rw [hws] at h
        dsimp only at h ⊢
        by_cases h1 : c = '\x7d'
        · rw [if_pos h1] at h ⊢
          exact h
        · rw [if_neg h1] at h ⊢
          cases hstep : (if first then Except.ok (c :: rest)
              else expectChar ',' (c :: rest)) with
          | error err => rw [hstep] at h; exact absurd h (by simp)
          | ok s2 =>
            rw [hstep] at h
            dsimp only at h ⊢
            cases hws3 : skipWS s2 with
            | nil => rw [hws3] at h; exact absurd h (by simp)
            | cons c2 rest2 =>
              rw [hws3] at h
              dsimp only at h ⊢
              by_cases h2 : c2 = '"'
              · rw [if_pos h2] at h ⊢
                cases hsb : parseStringBody fuel rest2 with
                | error err => rw [hsb] at h; exact absurd h (by simp)
                | ok p =>
                  obtain ⟨key, afterKey⟩ := p
                  rw [hsb] at h
                  rw [parseStringBody_mono fuel f' hle' rest2 key afterKey hsb]
                  dsimp only at h ⊢
                  cases hec : expectChar ':' (skipWS afterKey) with
                  | error err => rw [hec] at h; exact absurd h (by simp)
                  | ok afterColon =>
                    rw [hec] at h
                    dsimp only at h ⊢
                    by_cases hdup : (((res.find? (fun kv =>
                        normName kv.1 == normName key)).map Prod.fst).getD []) ≠ []
                    · rw [if_pos hdup] at h ⊢
                      cases hpv : parseValue fuel afterColon with
                      | error err => rw [hpv] at h; exact absurd h (by simp)
                      | ok p =>
                        obtain ⟨v, afterVal⟩ := p
                        rw [hpv] at h
                        rw [(parserTrio_mono fuel f' hle').1 afterColon v afterVal hpv]
                        dsimp only at h ⊢
                        exact ih f' hle' afterVal res false m rem h
                    · rw [if_neg hdup] at h ⊢
                      cases hpv : parseValue fuel afterColon with
                      | error err => rw [hpv] at h; exact absurd h (by simp)
                      | ok p =>
                        obtain ⟨v, afterVal⟩ := p
                        rw [hpv] at h
                        rw [(parserTrio_mono fuel f' hle').1 afterColon v afterVal hpv]
                        dsimp only at h ⊢
                        exact ih f' hle' afterVal (mapSet res key v) false m rem h
              · rw [if_neg h2] at h
                exact absurd h (by simp)

/-- Claim C10: `parseMergeData` (both the `main` and the `fields`
version) succeeds on any byte input that begins with a well-formed JSON
object even when arbitrary bytes follow the object's closing brace: the
returned mapping is exactly the one parsed from the object prefix, and
the trailing bytes are never examined (the function returns right after
reading the closing-brace token). -/
theorem parseMergeData_ignores_trailing_bytes (raw extra : Str) (m : MergeData) :
    (mainParseMergeData raw = Except.ok m →
      mainParseMergeData (raw ++ extra) = Except.ok m) ∧
    (fieldsParseMergeData raw = Except.ok m →
      fieldsParseMergeData (raw ++ extra) = Except.ok m) := by
  constructor
  · intro h
    unfold mainParseMergeData at h ⊢
    cases hws : skipWS raw with
    | nil => rw [hws] at h; exact absurd h (by simp)
    | cons c rest =>
      rw [hws] at h
      rw [skipWS_cons_append raw c rest extra hws]
      dsimp only at h ⊢
      by_cases h1 : c = '\x7b'
      · rw [if_pos h1] at h ⊢
        cases hp : pairsMain (raw.length + 1) rest [] true with
        | error err => rw [hp] at h; exact absurd h (by simp)
        | ok p =>
          obtain ⟨m', rem⟩ := p
          rw [hp] at h
          dsimp only at h
          rw [Except.ok.injEq] at h
          have hmono := pairsMain_mono (raw.length + 1) ((raw ++ extra).length + 1)
            (by simp) rest [] true m' rem hp
          have happ := pairsMain_append extra ((raw ++ extra).length + 1)
            rest [] true m' rem hmono
          rw [happ]
          dsimp only
          rw [h]
      · rw [if_neg h1] at h
        exact absurd h (by simp)
  · intro h
    unfold fieldsParseMergeData at h ⊢
    cases hws : skipWS raw with
    | nil => rw [hws] at h; exact absurd h (by simp)
    | cons c rest =>
      rw [hws] at h
      rw [skipWS_cons_append raw c rest extra hws]
      dsimp only at h ⊢
      by_cases h1 : c = '\x7b'
      · rw [if_pos h1] at h ⊢
        cases hp : pairsFields (raw.length + 1) rest [] true with
        | error err => rw [hp] at h; exact absurd h (by simp)
        | ok p =>
          obtain ⟨m', rem⟩ := p
          rw [hp] at h
          dsimp only at h
          rw [Except.ok.injEq] at h
          have hmono := pairsFields_mono (raw.length + 1) ((raw ++ extra).length + 1)
            (by simp) rest [] true m' rem hp
          have happ := pairsFields_append extra ((raw ++ extra).length + 1)
            rest [] true m' rem hmono
          rw [happ]
          dsimp only
          rw [h]
      · rw [if_neg h1] at h
        exact absurd h (by simp)

set_option maxRecDepth 8192 in
/-- Claim C10 (witness): the object `\x7b"a":true\x7d` followed by
trailing garbage still parses to the same mapping. -/
theorem parseMergeData_ignores_trailing_bytes_witness :
    mainParseMergeData (str "\x7b\"a\":true\x7d" ++ str "garbage!!") =
      Except.ok [(str "a", JValue.jbool true)] ∧
    fieldsParseMergeData (str "\x7b\"a\":true\x7d" ++ str "garbage!!") =
      Except.ok [(str "a", JValue.jbool true)] :=
  ⟨(parseMergeData_ignores_trailing_bytes (str "\x7b\"a\":true\x7d")
      (str "garbage!!") [(str "a", JValue.jbool true)]).1 rfl,
   (parseMergeData_ignores_trailing_bytes (str "\x7b\"a\":true\x7d")
      (str "garbage!!") [(str "a", JValue.jbool true)]).2 rfl⟩
